import Mathlib

/-!
Verification of the MIMDB columnar database (Rust sources under `mimdb/src`)
against its natural-language specification.

The embedding models:
* the int64 codec pipeline (`compression.rs`): delta transform, zigzag varint
  encoding, Zstd (the external Zstd/LZ4/bincode libraries are passed in as
  function parameters together with their round-trip contracts);
* the varchar codec (`compression.rs`): length-prefixed strings + LZ4;
* the file format writer/reader (`serialization.rs`);
* the in-memory `Table` (`lib.rs`);
* the metastore with deferred deletion (`metastore.rs`);
* the query executor's result retrieval (`api/executor.rs`).

Machine integers are modelled as `Nat`/`Int` with explicit wrap-around
(`% 2^64` and friends); `i64` values are `Int`s in `[-2^63, 2^63)`;
byte strings are `List Nat` with elements below 256; Rust `String`s are
modelled by their UTF-8 byte sequences (`List Nat`), so `String::from_utf8`
is the identity on them. Fallible Rust functions returning `anyhow::Result`
are modelled with `Option` (the error payload is a human-readable message in
the source and carries no program-visible structure).
-/

namespace Mimdb

/-! ## Two's-complement 64-bit model -/

/-- Lower bound of `i64`: `-(2^63)` as a literal. -/
def i64Lo : Int := -9223372036854775808

/-- Upper bound (exclusive) of `i64`: `2^63` as a literal. -/
def i64Hi : Int := 9223372036854775808

/-- Size of the `u64` value space: `2^64` as a literal. -/
def u64Size : Int := 18446744073709551616

/-- Predicate: `v` is representable as an `i64`. -/
def isI64 (v : Int) : Prop := i64Lo ≤ v ∧ v < i64Hi

instance (v : Int) : Decidable (isI64 v) := by unfold isI64; infer_instance

/-- Wrap an integer into the `i64` range (two's-complement wrap-around). -/
def i64Wrap (v : Int) : Int := (v + 9223372036854775808) % 18446744073709551616 - 9223372036854775808

/-- Rust `a.wrapping_sub(b)` on `i64`. -/
def wrappingSub (a b : Int) : Int := i64Wrap (a - b)

/-- Rust `a.wrapping_add(b)` on `i64`. -/
def wrappingAdd (a b : Int) : Int := i64Wrap (a + b)

/-- Bit pattern of an `i64` value reinterpreted as `u64` (Rust `as u64`). -/
def i64ToBits (v : Int) : Nat := (v % 18446744073709551616).toNat

/-- Reinterpret a `u64` bit pattern as an `i64` value (Rust `as i64`). -/
def bitsToI64 (w : Nat) : Int :=
  if w < 9223372036854775808 then (w : Int) else (w : Int) - 18446744073709551616

/-! ## Zigzag encoding (encode_vle / decode_vle, compression.rs lines 150-185)

`encode_vle` computes `let unsigned = ((value << 1) ^ (value >> 63)) as u64`.
`value << 1` is a wrapping shift of the signed 64-bit value (bit pattern
doubled mod `2^64`) and `value >> 63` is an arithmetic shift, i.e. `Int`
floor-shift, which Lean's `Int >>> Nat` implements. -/

/-- Zigzag map of `encode_vle`: `((value << 1) ^ (value >> 63)) as u64`. -/
def zigzagEnc (v : Int) : Nat := i64ToBits (v * 2) ^^^ i64ToBits (v >>> (63 : Nat))

/-- Zigzag inverse of `decode_vle`:
`((result >> 1) as i64) ^ (-((result & 1) as i64))`, on the bit patterns. -/
def zigzagDec (u : Nat) : Int :=
  bitsToI64 ((u >>> 1) ^^^ i64ToBits (-((u &&& 1 : Nat) : Int)))

/-- Varint byte emission loop of `encode_vle` on the zigzagged value:
while `remaining >= 0x80` push `(remaining & 0x7F) | 0x80` and shift by 7;
finally push `remaining`. -/
def encodeVleU (u : Nat) : List Nat :=
  if u < 0x80 then [u] else ((u &&& 0x7F) ||| 0x80) :: encodeVleU (u >>> 7)
termination_by u
decreasing_by
  simp only [Nat.shiftRight_eq_div_pow]
  omega

/-- Rust `encode_vle(value, output)` (compression.rs lines 150-160): the bytes
appended to `output`. -/
def encode_vle (v : Int) : List Nat := encodeVleU (zigzagEnc v)

/-- Byte-consuming loop of `decode_vle` (compression.rs lines 163-185).
State: input to process, current `shift`, accumulated `result`, `bytes_read`.
The accumulation `result |= ((byte & 0x7F) as u64) << shift` truncates the
shifted value to 64 bits; falling off the end of the input returns `Ok`
(the source's `for` loop simply ends); `shift >= 64` after a continuation
byte is the error `"VLE integer too large"`. -/
def decodeVleLoop : List Nat → Nat → Nat → Nat → Option (Nat × Nat)
  | [], _, acc, n => some (acc, n)
  | b :: rest, shift, acc, n =>
    let acc' := acc ||| ((b &&& 0x7F) <<< shift) % 18446744073709551616
    if b &&& 0x80 = 0 then some (acc', n + 1)
    else if shift + 7 ≥ 64 then none
    else decodeVleLoop rest (shift + 7) acc' (n + 1)

/-- Rust `decode_vle(input)` (compression.rs lines 163-185): the decoded
signed value and the number of bytes consumed. -/
def decode_vle (input : List Nat) : Option (Int × Nat) :=
  (decodeVleLoop input 0 0 0).map fun p => (zigzagDec p.1, p.2)

/-! ## Delta transform and int64 column codec (compression.rs lines 28-86) -/

/-- Tail of the delta transform: `deltas.push(data[i].wrapping_sub(data[i-1]))`. -/
def deltasGo (prev : Int) : List Int → List Int
  | [] => []
  | y :: ys => wrappingSub y prev :: deltasGo y ys

/-- Delta transform of `compress_int64_column`: first value as-is, then
wrap-around differences. -/
def deltas : List Int → List Int
  | [] => []
  | x :: xs => x :: deltasGo x xs

/-- Rust `compress_int64_column(data)` (compression.rs lines 28-50).
The external Zstd level-3 encoder `zstd::encode_all(bytes, 3)` is passed in
as `zenc`; an empty column yields an empty byte vector without calling Zstd. -/
def compress_int64_column (zenc : List Nat → List Nat) (data : List Int) : List Nat :=
  if data = [] then [] else zenc ((deltas data).flatMap encode_vle)

/-- Varint-reading loop of `decompress_int64_column`: reads while
`pos < decompressed.len() && deltas.len() < row_count`. The `remaining`
argument is `row_count - deltas.len()`. -/
def readDeltasLoop : List Nat → Nat → Option (List Int)
  | _, 0 => some []
  | [], _ + 1 => some []
  | b :: bs, r + 1 =>
    match decode_vle (b :: bs) with
    | none => none
    | some (d, n) =>
      match readDeltasLoop ((b :: bs).drop n) r with
      | none => none
      | some ds => some (d :: ds)

/-- Prefix-sum tail of `decompress_int64_column`:
`result.push(result[i-1].wrapping_add(deltas[i]))`. -/
def reconstructGo (prev : Int) : List Int → List Int
  | [] => []
  | x :: xs => wrappingAdd prev x :: reconstructGo (wrappingAdd prev x) xs

/-- Reconstruction of original values from deltas in
`decompress_int64_column`: first delta as-is, then wrap-around prefix sums. -/
def reconstruct : List Int → List Int
  | [] => []
  | d :: ds => d :: reconstructGo d ds

/-- Rust `decompress_int64_column(compressed_data, row_count)`
(compression.rs lines 53-86). The external Zstd decoder `zstd::decode_all`
is passed in as `zdec`; an empty compressed buffer yields an empty column. -/
def decompress_int64_column (zdec : List Nat → Option (List Nat))
    (compressed : List Nat) (rowCount : Nat) : Option (List Int) :=
  if compressed = [] then some [] else
  match zdec compressed with
  | none => none
  | some decompressed =>
    match readDeltasLoop decompressed rowCount with
    | none => none
    | some ds => some (reconstruct ds)

/-! ## Varchar column codec (compression.rs lines 89-147)

Rust `String`s are modelled by their UTF-8 byte sequences, so
`String::from_utf8` on bytes that came from a `String` is the identity and
`s.len()` is the byte length. -/

/-- Little-endian bytes of `len as u32` (`(len as u32).to_le_bytes()`). -/
def u32le (n : Nat) : List Nat :=
  [n % 256, n / 256 % 256, n / 65536 % 256, n / 16777216 % 256]

/-- Little-endian `u32` read (`u32::from_le_bytes`); `0` on a malformed slice
(the callers always pass exactly four bytes). -/
def u32leDecode : List Nat → Nat
  | [b0, b1, b2, b3] => b0 + 256 * b1 + 65536 * b2 + 16777216 * b3
  | _ => 0

/-- Length-prefixed serialization loop of `compress_varchar_column`:
for each string push `(len as u32).to_le_bytes()` then the raw bytes. -/
def serializeStrings (data : List (List Nat)) : List Nat :=
  data.flatMap fun s => u32le s.length ++ s

/-- Rust `compress_varchar_column(data)` (compression.rs lines 89-102).
The external LZ4 encoder `lz4_flex::compress_prepend_size` is passed in as
`lenc`; note there is no empty-input early return here. -/
def compress_varchar_column (lenc : List Nat → List Nat) (data : List (List Nat)) : List Nat :=
  lenc (serializeStrings data)

/-- String-reading loop of `decompress_varchar_column`: reads while
`pos < decompressed.len() && result.len() < row_count`, breaking early when
fewer than 4 length bytes or fewer than `len` payload bytes remain. -/
def readStringsLoop : List Nat → Nat → List (List Nat)
  | _, 0 => []
  | [], _ + 1 => []
  | b :: bs, r + 1 =>
    let l := b :: bs
    if l.length < 4 then [] else
    let len := u32leDecode (l.take 4)
    if l.length < 4 + len then [] else
    (l.drop 4).take len :: readStringsLoop (l.drop (4 + len)) r

/-- Rust `decompress_varchar_column(compressed_data, row_count)`
(compression.rs lines 105-147). The external LZ4 decoder
`lz4_flex::decompress_size_prepended` is passed in as `ldec`; an empty
compressed buffer yields an empty column. `String::from_utf8` is the
identity in this model (strings are their UTF-8 byte lists). -/
def decompress_varchar_column (ldec : List Nat → Option (List Nat))
    (compressed : List Nat) (rowCount : Nat) : Option (List (List Nat)) :=
  if compressed = [] then some [] else
  match ldec compressed with
  | none => none
  | some decompressed => some (readStringsLoop decompressed rowCount)

/-! ## In-memory Table (lib.rs lines 29-121) -/

/-- Column data types (`ColumnType`, lib.rs lines 31-34). -/
inductive ColumnType where
  | int64
  | varchar
deriving DecidableEq, Repr

/-- In-memory column data (`ColumnData`, lib.rs lines 57-60). -/
inductive ColumnData where
  | int64 (data : List Int)
  | varchar (data : List (List Nat))
deriving DecidableEq, Repr

/-- Rust `ColumnData::len` (lib.rs lines 70-75). -/
def ColumnData.len : ColumnData → Nat
  | .int64 data => data.length
  | .varchar data => data.length

/-- Rust `ColumnData::column_type` (lib.rs lines 84-89). -/
def ColumnData.columnType : ColumnData → ColumnType
  | .int64 _ => .int64
  | .varchar _ => .varchar

/-- Rust `Table` (lib.rs lines 64-67). The `HashMap<String, ColumnData>` is
modelled as an association list with unique keys, listed in the hash map's
(unspecified) enumeration order — the order `for (name, column_data) in
&self.columns` iterates. -/
structure Table where
  columns : List (String × ColumnData)
  row_count : Nat
deriving DecidableEq, Repr

/-- Rust `Table::new()` (lib.rs lines 99-104). -/
def Table.new : Table := { columns := [], row_count := 0 }

/-- Model of `HashMap::insert`: replaces the value of an existing key,
otherwise adds a new entry (its position in the enumeration is arbitrary;
appending is one admissible choice). -/
def mapInsert (m : List (String × ColumnData)) (k : String) (v : ColumnData) :
    List (String × ColumnData) :=
  if m.any (·.1 = k) then m.map fun p => if p.1 = k then (k, v) else p
  else m ++ [(k, v)]

/-- Rust `Table::add_column(name, data)` (lib.rs lines 106-121): bails when
the table is nonempty and the data length differs from `row_count`; the first
column fixes `row_count`; then `HashMap::insert` (which replaces any existing
column of the same name). -/
def Table.add_column (t : Table) (name : String) (data : ColumnData) : Option Table :=
  if ¬ t.columns.isEmpty ∧ data.len ≠ t.row_count then none
  else some { columns := mapInsert t.columns name data,
              row_count := if t.columns.isEmpty then data.len else t.row_count }

/-- Rust `Table::get_column(name)` (lib.rs lines 123-125). -/
def Table.get_column (t : Table) (name : String) : Option ColumnData :=
  (t.columns.find? (·.1 = name)).map (·.2)

/-! ## File format (serialization.rs) -/

/-- Magic bytes `b"MIMDB002"` (serialization.rs line 67). -/
def MAGIC_BYTES : List Nat := [77, 73, 77, 68, 66, 48, 48, 50]

/-- Format version (serialization.rs line 68). -/
def VERSION : Nat := 2

/-- Batch size bounds and default (serialization.rs lines 71-77). -/
def DEFAULT_BATCH_SIZE : Nat := 100000

/-- Minimum batch size (serialization.rs line 74). -/
def MIN_BATCH_SIZE : Nat := 1000

/-- Maximum batch size (serialization.rs line 77). -/
def MAX_BATCH_SIZE : Nat := 1000000

/-- Rust `BatchConfig` (serialization.rs lines 81-83). -/
structure BatchConfig where
  batch_size : Nat
deriving DecidableEq, Repr

/-- Rust `BatchConfig::default()` (serialization.rs lines 85-91). -/
def BatchConfig.default : BatchConfig := { batch_size := DEFAULT_BATCH_SIZE }

/-- Rust `BatchConfig::new(batch_size)` (serialization.rs lines 95-106):
`batch_size.clamp(MIN_BATCH_SIZE, MAX_BATCH_SIZE)`. -/
def BatchConfig.new (batchSize : Nat) : BatchConfig :=
  { batch_size := min (max batchSize MIN_BATCH_SIZE) MAX_BATCH_SIZE }

/-- Rust `BatchMeta` (serialization.rs lines 111-116). -/
structure BatchMeta where
  start_row : Nat
  row_count : Nat
  compressed_size : Nat
  uncompressed_size : Nat
deriving DecidableEq, Repr

/-- Rust `ColumnMeta` (serialization.rs lines 120-128). -/
structure ColumnMeta where
  name : String
  column_type : ColumnType
  total_compressed_size : Nat
  total_uncompressed_size : Nat
  total_row_count : Nat
  batch_size : Nat
  batches : List BatchMeta
deriving DecidableEq, Repr

/-- Rust `FileHeader` (serialization.rs lines 132-137). -/
structure FileHeader where
  version : Nat
  column_count : Nat
  row_count : Nat
  columns : List ColumnMeta
deriving DecidableEq, Repr

/-- Batch boundary loop of `serialize_with_config` for large columns:
`for batch_start in (0..row_count).step_by(config.batch_size)` with
`batch_end = min(batch_start + batch_size, row_count)`; produces the
`(start_row, batch_row_count)` pairs. `fuel` bounds the iteration count
(one step consumes at least one unit when `batch_size ≥ 1`). -/
def batchLoop (rc bs : Nat) : Nat → Nat → List (Nat × Nat)
  | 0, _ => []
  | fuel + 1, start =>
    if start < rc then (start, min (start + bs) rc - start) :: batchLoop rc bs fuel (start + bs)
    else []

/-- Batch ranges emitted by `serialize_with_config` (serialization.rs lines
168-233): a single whole-column batch when `row_count ≤ batch_size`, else
the step-by loop. `rc / bs + 1` steps always suffice. -/
def batchRanges (rc bs : Nat) : List (Nat × Nat) :=
  if rc ≤ bs then [(0, rc)] else batchLoop rc bs (rc / bs + 1) 0

/-- Row slice `data[start..start+cnt]` of a column. -/
def sliceData : ColumnData → Nat → Nat → ColumnData
  | .int64 data, start, cnt => .int64 ((data.drop start).take cnt)
  | .varchar data, start, cnt => .varchar ((data.drop start).take cnt)

/-- Uncompressed size bookkeeping of `serialize_with_config`
(serialization.rs lines 175-180 and 210-219): `len * 8` for int64,
`Σ s.len() + len * 4` for varchar. -/
def uncompressedSize : ColumnData → Nat
  | .int64 data => data.length * 8
  | .varchar data => (data.map List.length).sum + data.length * 4

/-- Per-column compression dispatch of `serialize_with_config`
(serialization.rs lines 170-173 and 199-208). -/
def compressColumn (zenc lenc : List Nat → List Nat) : ColumnData → List Nat
  | .int64 data => compress_int64_column zenc data
  | .varchar data => compress_varchar_column lenc data

/-- Per-column work of `serialize_with_config` (serialization.rs lines
161-246): compress each batch range, record its `BatchMeta`, and return the
`ColumnMeta` together with the concatenated compressed batch bytes. -/
def serializeColumn (zenc lenc : List Nat → List Nat) (bs : Nat)
    (name : String) (d : ColumnData) : ColumnMeta × List Nat :=
  let parts := (batchRanges d.len bs).map fun r =>
    let slice := sliceData d r.1 r.2
    let comp := compressColumn zenc lenc slice
    (BatchMeta.mk r.1 r.2 comp.length (uncompressedSize slice), comp)
  (⟨name, d.columnType, (parts.map (·.1.compressed_size)).sum,
    (parts.map (·.1.uncompressed_size)).sum, d.len, bs, parts.map (·.1)⟩,
   (parts.map (·.2)).flatten)

/-- File header built by `serialize_with_config` (serialization.rs lines
249-254). -/
def headerOf (zenc lenc : List Nat → List Nat) (t : Table) (cfg : BatchConfig) : FileHeader :=
  ⟨VERSION, t.columns.length, t.row_count,
   t.columns.map fun p => (serializeColumn zenc lenc cfg.batch_size p.1 p.2).1⟩

/-- Rust `Table::serialize_with_config(path, config)` (serialization.rs lines
147-272): the byte stream written to the file. `henc` is the external
`bincode::serialize` of the header. -/
def serialize_with_config (zenc lenc : List Nat → List Nat)
    (henc : FileHeader → List Nat) (t : Table) (cfg : BatchConfig) : List Nat :=
  let hb := henc (headerOf zenc lenc t cfg)
  MAGIC_BYTES ++ u32le hb.length ++ hb ++
    (t.columns.map fun p => (serializeColumn zenc lenc cfg.batch_size p.1 p.2).2).flatten

/-- Model of `Read::read_exact(buf)` for a buffer of `n` bytes on a stream:
the bytes read and the rest of the stream, failing when the stream is too
short. -/
def readExact (n : Nat) (bytes : List Nat) : Option (List Nat × List Nat) :=
  if n ≤ bytes.length then some (bytes.take n, bytes.drop n) else none

/-- Batch-reading loop of `deserialize_format` for an int64 column
(serialization.rs lines 317-329): `read_exact` each batch's
`compressed_size` bytes, decompress with the batch's `row_count`, append. -/
def readBatchesInt (zdec : List Nat → Option (List Nat)) :
    List BatchMeta → List Nat → Option (List Int × List Nat)
  | [], bytes => some ([], bytes)
  | bm :: rest, bytes =>
    match readExact bm.compressed_size bytes with
    | none => none
    | some (chunk, bytes') =>
      match decompress_int64_column zdec chunk bm.row_count with
      | none => none
      | some vals =>
        match readBatchesInt zdec rest bytes' with
        | none => none
        | some (more, bytes'') => some (vals ++ more, bytes'')

/-- Batch-reading loop of `deserialize_format` for a varchar column
(serialization.rs lines 331-344). -/
def readBatchesVar (ldec : List Nat → Option (List Nat)) :
    List BatchMeta → List Nat → Option (List (List Nat) × List Nat)
  | [], bytes => some ([], bytes)
  | bm :: rest, bytes =>
    match readExact bm.compressed_size bytes with
    | none => none
    | some (chunk, bytes') =>
      match decompress_varchar_column ldec chunk bm.row_count with
      | none => none
      | some vals =>
        match readBatchesVar ldec rest bytes' with
        | none => none
        | some (more, bytes'') => some (vals ++ more, bytes'')

/-- Column loop of `deserialize_format` (serialization.rs lines 314-348):
decode each column's batches and `add_column` it into the accumulating
table. Bytes left over after the last column are never looked at. -/
def deserializeColumns (zdec ldec : List Nat → Option (List Nat)) :
    List ColumnMeta → List Nat → Table → Option Table
  | [], _, t => some t
  | cm :: rest, bytes, t =>
    match cm.column_type with
    | .int64 =>
      match readBatchesInt zdec cm.batches bytes with
      | none => none
      | some (data, bytes') =>
        match t.add_column cm.name (.int64 data) with
        | none => none
        | some t' => deserializeColumns zdec ldec rest bytes' t'
    | .varchar =>
      match readBatchesVar ldec cm.batches bytes with
      | none => none
      | some (data, bytes') =>
        match t.add_column cm.name (.varchar data) with
        | none => none
        | some t' => deserializeColumns zdec ldec rest bytes' t'

/-- Rust `Table::deserialize_format(reader)` (serialization.rs lines
296-351): read the 4-byte little-endian header size, the header bytes,
`bincode::deserialize` them (`hdec`), reject a version other than
`VERSION`, then decode the columns. -/
def deserialize_format (zdec ldec : List Nat → Option (List Nat))
    (hdec : List Nat → Option FileHeader) (bytes : List Nat) : Option Table :=
  match readExact 4 bytes with
  | none => none
  | some (hsb, bytes1) =>
    match readExact (u32leDecode hsb) bytes1 with
    | none => none
    | some (hb, bytes2) =>
      match hdec hb with
      | none => none
      | some header =>
        if header.version ≠ VERSION then none
        else deserializeColumns zdec ldec header.columns bytes2 Table.new

/-- Rust `Table::deserialize_with_config(path, _config)` (serialization.rs
lines 281-293): read and verify the 8 magic bytes, then
`deserialize_format`. -/
def deserialize_with_config (zdec ldec : List Nat → Option (List Nat))
    (hdec : List Nat → Option FileHeader) (bytes : List Nat) : Option Table :=
  match readExact 8 bytes with
  | none => none
  | some (magic, rest) =>
    if magic ≠ MAGIC_BYTES then none
    else deserialize_format zdec ldec hdec rest

/-! ## Metastore (metastore.rs)

Filesystem paths are lists of components; the filesystem itself is modelled
as the finite sets (lists) of existing files and directories. The `persist`
calls (writing `metastore.json`) have no effect on the modelled state and
are omitted; locks are irrelevant in this sequential model. -/

/-- Filesystem path, as a list of components. -/
abbrev FsPath := List String

/-- Rust `ColumnMetadata` (metastore.rs lines 31-35). -/
structure ColumnMetadata where
  name : String
  column_type : ColumnType
deriving DecidableEq, Repr

/-- Rust `TableMetadata` (metastore.rs lines 38-46); `created_at` carries no
program-visible semantics and is omitted. -/
structure TableMetadata where
  table_id : String
  name : String
  columns : List ColumnMetadata
  data_files : List FsPath
deriving DecidableEq, Repr

/-- Rust `PendingDeletion` (metastore.rs lines 67-72). -/
structure PendingDeletion where
  table_id : String
  data_files : List FsPath
  table_dir : FsPath
deriving DecidableEq, Repr

/-- Rust `TableAccessTracker` (metastore.rs lines 88-92):
`HashMap<String, HashSet<String>>` as an association list of
duplicate-free query-id lists. -/
structure TableAccessTracker where
  active_accesses : List (String × List String)
deriving DecidableEq, Repr

/-- Association-list lookup keyed by the first component. -/
def lookupStr {α : Type} (l : List (String × α)) (k : String) : Option α :=
  (l.find? (·.1 = k)).map (·.2)

/-- Rust `TableAccessTracker::acquire` (metastore.rs lines 102-107):
`entry(table_id).or_default().insert(query_id)`. -/
def TableAccessTracker.acquire (tr : TableAccessTracker) (tid qid : String) :
    TableAccessTracker :=
  if tr.active_accesses.any (·.1 = tid) then
    ⟨tr.active_accesses.map fun p =>
      if p.1 = tid then (p.1, if qid ∈ p.2 then p.2 else p.2 ++ [qid]) else p⟩
  else ⟨tr.active_accesses ++ [(tid, [qid])]⟩

/-- Rust `TableAccessTracker::release` (metastore.rs lines 110-117): remove
`query_id` from the table's set and drop the entry when it becomes empty. -/
def TableAccessTracker.release (tr : TableAccessTracker) (tid qid : String) :
    TableAccessTracker :=
  ⟨(tr.active_accesses.map fun p =>
      if p.1 = tid then (p.1, p.2.filter (· ≠ qid)) else p).filter
    fun p => ¬ (p.1 = tid ∧ p.2 = [])⟩

/-- Rust `TableAccessTracker::has_active_accesses` (metastore.rs lines
120-125). -/
def TableAccessTracker.hasActiveAccesses (tr : TableAccessTracker) (tid : String) : Bool :=
  match lookupStr tr.active_accesses tid with
  | some s => ¬ s.isEmpty
  | none => false

/-- Rust `TableAccessTracker::access_count` (metastore.rs lines 128-133). -/
def TableAccessTracker.accessCount (tr : TableAccessTracker) (tid : String) : Nat :=
  match lookupStr tr.active_accesses tid with
  | some s => s.length
  | none => 0

/-- Modelled filesystem: the sets of existing files and directories. -/
structure FileSys where
  files : List FsPath
  dirs : List FsPath
deriving DecidableEq, Repr

/-- Rust `fs::remove_file(p)` (errors are discarded by the callers:
`let _ = fs::remove_file(file)`). -/
def FileSys.removeFile (fs : FileSys) (p : FsPath) : FileSys :=
  { fs with files := fs.files.filter (· ≠ p) }

/-- Path `p` is `d` itself or lies below directory `d`. -/
def underDir (d p : FsPath) : Bool := p.take d.length = d

/-- Rust `fs::remove_dir_all(d)`: removes the directory and everything under
it. -/
def FileSys.removeDirAll (fs : FileSys) (d : FsPath) : FileSys :=
  { files := fs.files.filter fun p => ¬ underDir d p
    dirs := fs.dirs.filter fun p => ¬ underDir d p }

/-- Rust `Path::exists()` for a directory. -/
def FileSys.dirExists (fs : FileSys) (d : FsPath) : Bool := fs.dirs.contains d

/-- Combined state of a `Metastore` (metastore.rs lines 138-144): the
`MetastoreData` behind the `RwLock`, the access tracker behind its mutex,
the data directory path, and the modelled filesystem. -/
structure MetastoreState where
  tables : List (String × TableMetadata)
  name_to_id : List (String × String)
  pending_deletions : List PendingDeletion
  tracker : TableAccessTracker
  data_directory : FsPath
  fs : FileSys
deriving DecidableEq, Repr

/-- Rust `Metastore::get_table(table_id)` (metastore.rs lines 203-206). -/
def getTable (s : MetastoreState) (tid : String) : Option TableMetadata :=
  lookupStr s.tables tid

/-- Directory `<data_directory>/<table_id>` of a table
(`self.data_directory.join(table_id)`). -/
def tableDirOf (s : MetastoreState) (tid : String) : FsPath :=
  s.data_directory ++ [tid]

/-- Rust `Metastore::acquire_table_access(table_id, query_id)`
(metastore.rs lines 332-344): bail `"Table does not exist"` when the id is
not in `tables`; otherwise record the access. `none` models the error
return, in which case no state changes. -/
def acquire_table_access (s : MetastoreState) (tid qid : String) :
    Option MetastoreState :=
  if (lookupStr s.tables tid).isNone then none
  else some { s with tracker := s.tracker.acquire tid qid }

/-- Rust `Metastore::delete_table(table_id)` (metastore.rs lines 264-302):
remove the table from `tables` (bail `"Table not found"` when absent) and
its name from `name_to_id`; when active queries exist, push a
`PendingDeletion`; otherwise unlink the data files and remove the table
directory (only when that directory exists). -/
def delete_table (s : MetastoreState) (tid : String) :
    Option (MetastoreState × TableMetadata) :=
  match lookupStr s.tables tid with
  | none => none
  | some table =>
    let tables' := s.tables.filter fun p => ¬ p.1 = tid
    let nameToId' := s.name_to_id.filter fun p => ¬ p.1 = table.name
    let tdir := tableDirOf s tid
    if s.tracker.hasActiveAccesses tid then
      some ({ s with
                tables := tables'
                name_to_id := nameToId'
                pending_deletions :=
                  s.pending_deletions ++ [⟨tid, table.data_files, tdir⟩] }, table)
    else
      let fs' := if s.fs.dirExists tdir then
          (table.data_files.foldl FileSys.removeFile s.fs).removeDirAll tdir
        else s.fs
      some ({ s with tables := tables', name_to_id := nameToId', fs := fs' }, table)

/-- Rust `Metastore::try_cleanup_table(table_id)` (metastore.rs lines
362-387): remove the first pending deletion with this id, unlink its files,
and remove its directory when it exists. -/
def try_cleanup_table (s : MetastoreState) (tid : String) : MetastoreState :=
  match s.pending_deletions.find? (·.table_id = tid) with
  | none => s
  | some pending =>
    let pds := s.pending_deletions.eraseP (·.table_id = tid)
    let fs1 := pending.data_files.foldl FileSys.removeFile s.fs
    let fs2 := if fs1.dirExists pending.table_dir then fs1.removeDirAll pending.table_dir
      else fs1
    { s with pending_deletions := pds, fs := fs2 }

/-- Rust `Metastore::release_table_access(table_id, query_id)` (metastore.rs
lines 349-359): release in the tracker; when no accesses remain, try to
clean up a pending deletion of this table. -/
def release_table_access (s : MetastoreState) (tid qid : String) : MetastoreState :=
  let tr' := s.tracker.release tid qid
  let s' := { s with tracker := tr' }
  if tr'.hasActiveAccesses tid then s' else try_cleanup_table s' tid

/-- Rust `Metastore::is_pending_deletion(table_id)` (metastore.rs lines
420-425). -/
def is_pending_deletion (s : MetastoreState) (tid : String) : Bool :=
  s.pending_deletions.any (·.table_id = tid)

/-! ## Query executor result retrieval (api/executor.rs lines 501-557) -/

/-- Rust `QueryStatus` (api/models.rs). -/
inductive QueryStatus where
  | created
  | planning
  | running
  | completed
  | failed
deriving DecidableEq, Repr

/-- Rust `ResultColumn` (api/models.rs). -/
inductive ResultColumn where
  | int64 (vec : List Int)
  | varchar (vec : List (List Nat))
deriving DecidableEq, Repr

/-- Rust `QueryResultItem` (api/models.rs): `row_count` is an `i32`. -/
structure QueryResultItem where
  row_count : Int
  columns : List ResultColumn
deriving DecidableEq, Repr

/-- Rust `QueryResult = Vec<QueryResultItem>`. -/
abbrev QueryResult := List QueryResultItem

/-- Executor-internal `QueryState`, restricted to the fields `get_result`
reads (api/executor.rs lines 60-66). -/
structure QueryState where
  status : QueryStatus
  result : Option QueryResult
deriving DecidableEq, Repr

/-- Rust `limit as usize` for an `i32` limit: sign-extension to 64 bits then
reinterpretation, i.e. `limit mod 2^64`. -/
def i32ToUsize (limit : Int) : Nat := (limit % 18446744073709551616).toNat

/-- Rust `vec.iter().take(limit as usize).cloned().collect()` on a result
column (api/executor.rs lines 542-549). -/
def ResultColumn.takeN : ResultColumn → Nat → ResultColumn
  | .int64 vec, n => .int64 (vec.take n)
  | .varchar vec, n => .varchar (vec.take n)

/-- Row-limit application of `get_result` to one item (api/executor.rs lines
536-551): when `limit < item.row_count` (an `i32` comparison), overwrite
`row_count` with `limit` and truncate each column to `limit as usize`
elements. -/
def applyRowLimit (limit : Int) (item : QueryResultItem) : QueryResultItem :=
  if limit < item.row_count then
    { row_count := limit, columns := item.columns.map (ResultColumn.takeN · (i32ToUsize limit)) }
  else item

/-- Rust `QueryExecutor::get_result(query_id, row_limit)` (api/executor.rs
lines 517-557): bail when the query id is unknown or the query is not
`Completed`; with a stored result and a limit, apply the limit to every
item; otherwise return the stored result as-is. -/
def get_result (queries : List (String × QueryState)) (qid : String)
    (rowLimit : Option Int) : Option (Option QueryResult) :=
  match lookupStr queries qid with
  | none => none
  | some q =>
    if q.status ≠ QueryStatus.completed then none
    else
      match q.result, rowLimit with
      | some res, some limit => some (some (res.map (applyRowLimit limit)))
      | r, _ => some r

/-- Number of stored values in a result column. -/
def ResultColumn.len : ResultColumn → Nat
  | .int64 vec => vec.length
  | .varchar vec => vec.length

/-- Values of a column are well formed for its codec: i64 range bounds for
int64 data, `u32`-sized byte lengths for varchar data. -/
def columnOk : ColumnData → Prop
  | .int64 l => ∀ x ∈ l, isI64 x
  | .varchar s => ∀ x ∈ s, x.length < 4294967296

instance (d : ColumnData) : Decidable (columnOk d) := by
  cases d <;> (unfold columnOk; infer_instance)

/-! ## Helper lemmas: bit arithmetic -/

theorem xorAllOnes (n : Nat) : ∀ a : Nat, a < 2^n → (2^n - 1) ^^^ a = 2^n - 1 - a := by
  induction n with
  | zero => intro a ha; interval_cases a; simp
  | succ n ih =>
    intro a ha
    have hp : 0 < 2^n := Nat.two_pow_pos n
    have hps : 2^(n+1) = 2^n * 2 := by rw [Nat.pow_succ]
    have h1 : 2^(n+1) - 1 = Nat.bit true (2^n - 1) := by
      simp [Nat.bit_val]; omega
    have h2 : a = Nat.bit a.bodd a.div2 := (Nat.bit_decomp a).symm
    rw [h1, h2, Nat.xor_bit]
    have hv : a.div2 = a / 2 := Nat.div2_val a
    have hd : a.div2 < 2^n := by omega
    rw [ih _ hd]
    have hm : a % 2 = cond a.bodd 1 0 := Nat.mod_two_of_bodd a
    cases hb : a.bodd <;>
      simp [Nat.bit_val, hb] at hm ⊢ <;> omega

theorem lorMulTwoPow (s : Nat) : ∀ a b : Nat, a < 2^s → a ||| b * 2^s = a + b * 2^s := by
  induction s with
  | zero => intro a b ha; interval_cases a; simp
  | succ s ih =>
    intro a b ha
    have hps : 2^(s+1) = 2^s * 2 := by rw [Nat.pow_succ]
    have h2 : a = Nat.bit a.bodd a.div2 := (Nat.bit_decomp a).symm
    have h3 : b * 2^(s+1) = Nat.bit false (b * 2^s) := by
      simp [Nat.bit_val]; ring
    rw [h2, h3, Nat.lor_bit]
    have hv : a.div2 = a / 2 := Nat.div2_val a
    have hd : a.div2 < 2^s := by omega
    rw [ih _ b hd]
    have hm : a % 2 = cond a.bodd 1 0 := Nat.mod_two_of_bodd a
    cases hb : a.bodd <;> simp [Nat.bit_val, hb] at hm ⊢ <;> omega

theorem byteOr128And127 : ∀ a, a < 128 → (a ||| 128) &&& 127 = a := by decide

theorem byteOr128And128 : ∀ a, a < 128 → (a ||| 128) &&& 128 = 128 := by decide

theorem byteOr128Lt : ∀ a, a < 128 → (a ||| 128) < 256 := by decide

theorem byteAnd128 : ∀ a, a < 128 → a &&& 128 = 0 := by decide

theorem byteAnd127 : ∀ a, a < 128 → a &&& 127 = a := by decide

/-! ## Helper lemmas: zigzag round-trip -/

theorem intShiftRight63 (v : Int) (h : isI64 v) : v >>> (63 : Nat) = if v < 0 then -1 else 0 := by
  obtain ⟨hlo, hhi⟩ := h
  unfold i64Lo at hlo
  unfold i64Hi at hhi
  match v, hlo, hhi with
  | Int.ofNat m, _, hhi =>
    have h1 : (Int.ofNat m) >>> (63 : Nat) = Int.ofNat (m >>> 63) := rfl
    have h2 : m >>> 63 = m / 2^63 := Nat.shiftRight_eq_div_pow m 63
    have h3 : m < 2^63 := by
      have h5 : (Int.ofNat m) = (m : Int) := rfl
      rw [h5] at hhi
      have h6 : (2:Nat)^63 = 9223372036854775808 := by norm_num
      omega
    have h4 : m / 2^63 = 0 := Nat.div_eq_of_lt h3
    have h7 : ¬ ((Int.ofNat m) < 0) := by
      have h5 : (Int.ofNat m) = (m : Int) := rfl
      omega
    rw [h1, h2, h4, if_neg h7]
    rfl
  | Int.negSucc m, hlo, _ =>
    have h1 : (Int.negSucc m) >>> (63 : Nat) = Int.negSucc (m >>> 63) := rfl
    have h2 : m >>> 63 = m / 2^63 := Nat.shiftRight_eq_div_pow m 63
    have h3 : m < 2^63 := by
      have hm : (Int.negSucc m) = -(m + 1 : Int) := Int.negSucc_eq m
      rw [hm] at hlo
      have h6 : (2:Nat)^63 = 9223372036854775808 := by norm_num
      omega
    have h4 : m / 2^63 = 0 := Nat.div_eq_of_lt h3
    rw [h1, h2, h4, if_pos (Int.negSucc_lt_zero m)]
    rfl

theorem i64ToBits_int (v : Int) (h0 : -18446744073709551616 ≤ v)
    (h1 : v < 18446744073709551616) :
    ((i64ToBits v : Nat) : Int) = if 0 ≤ v then v else v + 18446744073709551616 := by
  unfold i64ToBits
  have hm : v % 18446744073709551616 = if 0 ≤ v then v else v + 18446744073709551616 := by
    split <;> omega
  rw [hm]
  split <;> omega

theorem zigzagEnc_int (v : Int) (h : isI64 v) :
    ((zigzagEnc v : Nat) : Int) = if 0 ≤ v then 2 * v else -(2 * v) - 1 := by
  have hsh := intShiftRight63 v h
  obtain ⟨hlo, hhi⟩ := h
  unfold i64Lo at hlo
  unfold i64Hi at hhi
  unfold zigzagEnc
  rw [hsh]
  by_cases hv : 0 ≤ v
  · have hneg : ¬ v < 0 := by omega
    have hz : i64ToBits 0 = 0 := by decide
    have hb : ((i64ToBits (v * 2) : Nat) : Int) = v * 2 := by
      rw [i64ToBits_int (v * 2) (by omega) (by omega), if_pos (by omega)]
    rw [if_neg hneg, if_pos hv, hz, Nat.xor_zero]
    omega
  · have hneg : v < 0 := by omega
    have hones : i64ToBits (-1) = 18446744073709551615 := by decide
    have hb : ((i64ToBits (v * 2) : Nat) : Int) = v * 2 + 18446744073709551616 := by
      rw [i64ToBits_int (v * 2) (by omega) (by omega), if_neg (by omega)]
    have hblt : i64ToBits (v * 2) < 2^64 := by
      have h64 : (2:Nat)^64 = 18446744073709551616 := by norm_num
      omega
    rw [if_pos hneg, if_neg hv, hones]
    have h64 : (18446744073709551615 : Nat) = 2^64 - 1 := by norm_num
    rw [h64, Nat.xor_comm, xorAllOnes 64 _ hblt]
    have h64n : (2:Nat)^64 = 18446744073709551616 := by norm_num
    omega

theorem zigzagEnc_lt (v : Int) (h : isI64 v) : zigzagEnc v < 18446744073709551616 := by
  have := zigzagEnc_int v h
  obtain ⟨hlo, hhi⟩ := h
  unfold i64Lo at hlo
  unfold i64Hi at hhi
  by_cases hv : 0 ≤ v <;> simp [hv] at this <;> omega

theorem zigzagDec_enc (v : Int) (h : isI64 v) : zigzagDec (zigzagEnc v) = v := by
  have henc := zigzagEnc_int v h
  obtain ⟨hlo, hhi⟩ := h
  unfold i64Lo at hlo
  unfold i64Hi at hhi
  unfold zigzagDec
  set u := zigzagEnc v with hu
  rw [Nat.and_one_is_mod]
  have hsh : u >>> 1 = u / 2 := Nat.shiftRight_eq_div_pow u 1
  by_cases hv : 0 ≤ v
  · rw [if_pos hv] at henc
    have hmod : u % 2 = 0 := by omega
    rw [hmod]
    have hz : i64ToBits (-((0 : Nat) : Int)) = 0 := by decide
    rw [hz, Nat.xor_zero, hsh]
    unfold bitsToI64
    rw [if_pos (by omega)]
    omega
  · rw [if_neg hv] at henc
    have hmod : u % 2 = 1 := by omega
    rw [hmod]
    have hones : i64ToBits (-((1 : Nat) : Int)) = 18446744073709551615 := by decide
    rw [hones, hsh]
    have hlt : u / 2 < 2^64 := by
      have h64 : (2:Nat)^64 = 18446744073709551616 := by norm_num
      omega
    have h64 : (18446744073709551615 : Nat) = 2^64 - 1 := by norm_num
    rw [h64, Nat.xor_comm, xorAllOnes 64 _ hlt]
    unfold bitsToI64
    have h64n : (2:Nat)^64 = 18446744073709551616 := by norm_num
    rw [if_neg (by omega)]
    omega

/-! ## Helper lemmas: varint round-trip -/

theorem encodeVleU_ne_nil (u : Nat) : encodeVleU u ≠ [] := by
  rw [encodeVleU]
  split <;> simp

theorem decodeVleLoop_encode (u : Nat) :
    ∀ shift acc n rest, u < 2^(64 - shift) → shift ≤ 63 → acc < 2^shift →
    decodeVleLoop (encodeVleU u ++ rest) shift acc n =
      some (acc + u * 2^shift, n + (encodeVleU u).length) := by
  induction u using Nat.strong_induction_on with
  | _ u ih =>
    intro shift acc n rest hu hs hacc
    have hC : (18446744073709551616 : Nat) = 2^64 := by norm_num
    have hpow : 2^(64 - shift) * 2^shift = 2^64 := by
      rw [← Nat.pow_add]
      congr 1
      omega
    rw [encodeVleU]
    by_cases h128 : u < 0x80
    · rw [if_pos h128]
      show decodeVleLoop (u :: rest) shift acc n = _
      have hmul : u * 2^shift < 2^64 := by
        calc u * 2^shift < 2^(64 - shift) * 2^shift :=
              (Nat.mul_lt_mul_right (Nat.two_pow_pos shift)).mpr hu
          _ = 2^64 := hpow
      simp only [decodeVleLoop, byteAnd127 u h128, byteAnd128 u h128, if_pos rfl,
        Nat.shiftLeft_eq, hC, Nat.mod_eq_of_lt hmul, lorMulTwoPow shift acc u hacc]
      simp
    · rw [if_neg h128]
      show decodeVleLoop (((u &&& 0x7F ||| 0x80) :: encodeVleU (u >>> 7)) ++ rest) shift acc n = _
      have hm : u &&& 0x7F = u % 128 := Nat.and_pow_two_sub_one_eq_mod u 7
      have hmlt : u % 128 < 128 := Nat.mod_lt u (by norm_num)
      have hshift7 : shift + 7 ≤ 63 := by
        by_contra hc
        have h1 : 64 - shift ≤ 7 := by omega
        have h2 : (2:Nat)^(64 - shift) ≤ 2^7 := Nat.pow_le_pow_right (by norm_num) h1
        have h3 : u < 2^7 := by omega
        norm_num at h3
        omega
      have hmul : (u % 128) * 2^shift < 2^64 := by
        have h1 : u % 128 < 2^(64 - shift) := by
          have h2 : (2:Nat)^7 ≤ 2^(64 - shift) := Nat.pow_le_pow_right (by norm_num) (by omega)
          have h3 : (2:Nat)^7 = 128 := by norm_num
          omega
        calc (u % 128) * 2^shift < 2^(64 - shift) * 2^shift :=
              (Nat.mul_lt_mul_right (Nat.two_pow_pos shift)).mpr h1
          _ = 2^64 := hpow
      have hbyte : u &&& 0x7F ||| 0x80 = u % 128 ||| 128 := by rw [hm]
      have hand127 : (u % 128 ||| 128) &&& 0x7F = u % 128 := byteOr128And127 _ hmlt
      have hand128 : (u % 128 ||| 128) &&& 0x80 = 128 := byteOr128And128 _ hmlt
      have hdiv7 : u >>> 7 = u / 128 := by
        rw [Nat.shiftRight_eq_div_pow]
      have hrec : u / 128 < u := Nat.div_lt_self (by omega) (by norm_num)
      have hrecb : u / 128 < 2^(64 - (shift + 7)) := by
        have h1 : 2^(64 - shift) = 2^(64 - (shift + 7)) * 2^7 := by
          rw [← Nat.pow_add]
          congr 1
          omega
        have h2 : (2:Nat)^7 = 128 := by norm_num
        rw [h1, h2] at hu
        exact Nat.div_lt_of_lt_mul (by omega)
      have haccb : acc + (u % 128) * 2^shift < 2^(shift + 7) := by
        have h1 : (2:Nat)^(shift + 7) = 2^shift * 2^7 := by rw [← Nat.pow_add]
        have h2 : (2:Nat)^7 = 128 := by norm_num
        have h3 : (u % 128) * 2^shift ≤ 127 * 2^shift :=
          Nat.mul_le_mul_right _ (by omega)
        omega
      simp only [List.cons_append, decodeVleLoop, hbyte, hand127, hand128,
        Nat.shiftLeft_eq, hC, Nat.mod_eq_of_lt hmul, lorMulTwoPow shift acc (u % 128) hacc]
      rw [if_neg (by norm_num), if_neg (by omega)]
      rw [hdiv7, List.append_eq, ih (u / 128) hrec (shift + 7) (acc + (u % 128) * 2^shift)
        (n + 1) rest hrecb (by omega) haccb]
      have harith : acc + (u % 128) * 2^shift + u / 128 * 2^(shift + 7) = acc + u * 2^shift := by
        have h1 : (2:Nat)^(shift + 7) = 2^shift * 2^7 := by rw [← Nat.pow_add]
        have h2 : (2:Nat)^7 = 128 := by norm_num
        have h3 : u % 128 + 128 * (u / 128) = u := Nat.mod_add_div u 128
        calc acc + (u % 128) * 2^shift + u / 128 * 2^(shift + 7)
            = acc + ((u % 128) + 128 * (u / 128)) * 2^shift := by rw [h1, h2]; ring
          _ = acc + u * 2^shift := by rw [h3]
      rw [harith]
      have hlen : n + 1 + (encodeVleU (u / 128)).length =
          n + ((u % 128 ||| 128) :: encodeVleU (u / 128)).length := by
        simp only [List.length_cons]
        omega
      rw [hlen]

theorem decode_vle_encode (v : Int) (h : isI64 v) (rest : List Nat) :
    decode_vle (encode_vle v ++ rest) = some (v, (encode_vle v).length) := by
  unfold decode_vle encode_vle
  have hlt : zigzagEnc v < 2^(64 - 0) := by
    have h1 := zigzagEnc_lt v h
    have h2 : (2:Nat)^(64 - 0) = 18446744073709551616 := by norm_num
    omega
  rw [decodeVleLoop_encode (zigzagEnc v) 0 0 0 rest hlt (by omega) (by norm_num)]
  simp [zigzagDec_enc v h]

/-! ## Helper lemmas: delta transform round-trip -/

theorem i64Wrap_isI64 (v : Int) : isI64 (i64Wrap v) := by
  unfold isI64 i64Wrap i64Lo i64Hi
  omega

theorem wrapCancel (prev x : Int) (hp : isI64 prev) (hx : isI64 x) :
    wrappingAdd prev (wrappingSub x prev) = x := by
  unfold isI64 i64Lo i64Hi at hp hx
  unfold wrappingAdd wrappingSub i64Wrap
  omega

theorem deltasGo_length (prev : Int) (xs : List Int) :
    (deltasGo prev xs).length = xs.length := by
  induction xs generalizing prev with
  | nil => rfl
  | cons y ys ih => simp [deltasGo, ih]

theorem deltas_length (xs : List Int) : (deltas xs).length = xs.length := by
  cases xs with
  | nil => rfl
  | cons x xs => simp [deltas, deltasGo_length]

theorem deltasGo_isI64 (prev : Int) (xs : List Int) :
    ∀ d ∈ deltasGo prev xs, isI64 d := by
  induction xs generalizing prev with
  | nil => intro d hd; simp [deltasGo] at hd
  | cons y ys ih =>
    intro d hd
    simp only [deltasGo, List.mem_cons] at hd
    rcases hd with h | h
    · rw [h]; exact i64Wrap_isI64 _
    · exact ih y d h

theorem deltas_isI64 (xs : List Int) (h : ∀ x ∈ xs, isI64 x) :
    ∀ d ∈ deltas xs, isI64 d := by
  cases xs with
  | nil => intro d hd; simp [deltas] at hd
  | cons x ys =>
    intro d hd
    simp only [deltas, List.mem_cons] at hd
    rcases hd with h1 | h1
    · rw [h1]; exact h x (by simp)
    · exact deltasGo_isI64 x ys d h1

theorem reconstructGo_deltasGo (xs : List Int) :
    ∀ prev, isI64 prev → (∀ x ∈ xs, isI64 x) →
    reconstructGo prev (deltasGo prev xs) = xs := by
  induction xs with
  | nil => intro prev _ _; rfl
  | cons y ys ih =>
    intro prev hprev hall
    have hy : isI64 y := hall y (by simp)
    have hcancel : wrappingAdd prev (wrappingSub y prev) = y := wrapCancel prev y hprev hy
    simp only [deltasGo, reconstructGo, hcancel]
    rw [ih y hy (fun x hx => hall x (by simp [hx]))]

theorem reconstruct_deltas (xs : List Int) (h : ∀ x ∈ xs, isI64 x) :
    reconstruct (deltas xs) = xs := by
  cases xs with
  | nil => rfl
  | cons x ys =>
    simp only [deltas, reconstruct]
    rw [reconstructGo_deltasGo ys x (h x (by simp)) (fun y hy => h y (by simp [hy]))]

/-! ## Helper lemmas: int64 column round-trip -/

theorem readDeltasLoop_zero (bytes : List Nat) : readDeltasLoop bytes 0 = some [] := by
  cases bytes <;> rfl

theorem readDeltasLoop_encode (ds : List Int) (hds : ∀ d ∈ ds, isI64 d) (rest : List Nat) :
    readDeltasLoop (ds.flatMap encode_vle ++ rest) ds.length = some ds := by
  induction ds with
  | nil => exact readDeltasLoop_zero _
  | cons d more ih =>
    have hd : isI64 d := hds d (by simp)
    have hne : encode_vle d ≠ [] := encodeVleU_ne_nil _
    cases hcd : encode_vle d with
    | nil => exact absurd hcd hne
    | cons b bs =>
      have hbytes : (d :: more).flatMap encode_vle ++ rest =
          b :: (bs ++ (more.flatMap encode_vle ++ rest)) := by
        simp [List.flatMap_cons, hcd]
      rw [hbytes]
      show readDeltasLoop (b :: (bs ++ (more.flatMap encode_vle ++ rest))) (more.length + 1) = _
      have hdec := decode_vle_encode d hd (more.flatMap encode_vle ++ rest)
      rw [hcd] at hdec
      have hdec' : decode_vle (b :: (bs ++ (more.flatMap encode_vle ++ rest))) =
          some (d, (b :: bs).length) := by
        rw [← List.cons_append]
        exact hdec
      simp only [readDeltasLoop, hdec']
      have hdrop : (b :: (bs ++ (more.flatMap encode_vle ++ rest))).drop (b :: bs).length =
          more.flatMap encode_vle ++ rest := by
        rw [← List.cons_append, List.drop_left]
      rw [hdrop, ih (fun x hx => hds x (by simp [hx]))]

theorem int64_column_roundtrip (zenc : List Nat → List Nat)
    (zdec : List Nat → Option (List Nat))
    (hz : ∀ b, zdec (zenc b) = some b) (hne : ∀ b, zenc b ≠ [])
    (xs : List Int) (hxs : ∀ x ∈ xs, isI64 x) :
    decompress_int64_column zdec (compress_int64_column zenc xs) xs.length = some xs := by
  by_cases hnil : xs = []
  · subst hnil
    rfl
  · unfold compress_int64_column decompress_int64_column
    rw [if_neg hnil, if_neg (hne _)]
    have h1 : (deltas xs).length = xs.length := deltas_length xs
    have h2 := readDeltasLoop_encode (deltas xs) (deltas_isI64 xs hxs) []
    rw [List.append_nil] at h2
    simp only [hz]
    rw [← h1]
    simp only [h2]
    rw [reconstruct_deltas xs hxs]

/-! ## Helper lemmas: varchar column round-trip -/

theorem u32le_decode (n : Nat) : u32leDecode (u32le n) = n % 4294967296 := by
  simp only [u32le, u32leDecode]
  omega

theorem u32le_length (n : Nat) : (u32le n).length = 4 := rfl

theorem readStringsLoop_zero (bytes : List Nat) : readStringsLoop bytes 0 = [] := by
  cases bytes <;> rfl

theorem readStringsLoop_serialize (ss : List (List Nat))
    (h : ∀ s ∈ ss, s.length < 4294967296) :
    readStringsLoop (serializeStrings ss) ss.length = ss := by
  induction ss with
  | nil => exact readStringsLoop_zero _
  | cons s rest ih =>
    have hs : s.length < 4294967296 := h s (by simp)
    have hser : serializeStrings (s :: rest) = u32le s.length ++ (s ++ serializeStrings rest) := by
      simp [serializeStrings]
    rw [hser]
    have hcons : u32le s.length ++ (s ++ serializeStrings rest) =
        s.length % 256 :: (s.length / 256 % 256 :: s.length / 65536 % 256 ::
          s.length / 16777216 % 256 :: (s ++ serializeStrings rest)) := by
      simp [u32le]
    rw [hcons]
    show readStringsLoop _ (rest.length + 1) = _
    rw [readStringsLoop]
    rw [← hcons]
    have hlen : (u32le s.length ++ (s ++ serializeStrings rest)).length =
        4 + (s.length + (serializeStrings rest).length) := by
      simp [u32le]
      omega
    rw [hlen]
    rw [if_neg (by omega)]
    have htake4 : (u32le s.length ++ (s ++ serializeStrings rest)).take 4 = u32le s.length := by
      have h4 : (4 : Nat) = (u32le s.length).length := rfl
      rw [h4, List.take_left]
    rw [htake4, u32le_decode, Nat.mod_eq_of_lt hs]
    rw [if_neg (by omega)]
    have hdrop4 : (u32le s.length ++ (s ++ serializeStrings rest)).drop 4 =
        s ++ serializeStrings rest := by
      have h4 : (4 : Nat) = (u32le s.length).length := rfl
      rw [h4, List.drop_left]
    have htakes : ((u32le s.length ++ (s ++ serializeStrings rest)).drop 4).take s.length = s := by
      rw [hdrop4, List.take_left]
    rw [htakes]
    have hdroprest : (u32le s.length ++ (s ++ serializeStrings rest)).drop (4 + s.length) =
        serializeStrings rest := by
      rw [← List.drop_drop, hdrop4, List.drop_left]
    rw [hdroprest, ih (fun x hx => h x (by simp [hx]))]

theorem varchar_column_roundtrip (lenc : List Nat → List Nat)
    (ldec : List Nat → Option (List Nat))
    (hl : ∀ b, ldec (lenc b) = some b) (hne : ∀ b, lenc b ≠ [])
    (ss : List (List Nat)) (hlen : ∀ s ∈ ss, s.length < 4294967296) :
    decompress_varchar_column ldec (compress_varchar_column lenc ss) ss.length = some ss := by
  unfold compress_varchar_column decompress_varchar_column
  rw [if_neg (hne _)]
  simp only [hl]
  rw [readStringsLoop_serialize ss hlen]

/-! ## Helper lemmas: batching policy -/

theorem batchLoop_sum (rc bs : Nat) :
    ∀ fuel start, rc ≤ start + fuel * bs →
    ((batchLoop rc bs fuel start).map (·.2)).sum = rc - start := by
  intro fuel
  induction fuel with
  | zero =>
    intro start hb
    simp only [batchLoop, List.map_nil, List.sum_nil]
    omega
  | succ fuel ih =>
    intro start hb
    rw [batchLoop]
    by_cases hlt : start < rc
    · rw [if_pos hlt]
      simp only [List.map_cons, List.sum_cons]
      rw [ih (start + bs) (by
        have h1 : (fuel + 1) * bs = fuel * bs + bs := by ring
        omega)]
      omega
    · rw [if_neg hlt]
      simp only [List.map_nil, List.sum_nil]
      omega

theorem batchRanges_fuel_ok (rc bs : Nat) (hbs : 0 < bs) : rc ≤ 0 + (rc / bs + 1) * bs := by
  have h1 : rc / bs * bs + rc % bs = rc := Nat.div_add_mod' rc bs
  have h2 := Nat.mod_lt rc hbs
  have h3 : (rc / bs + 1) * bs = rc / bs * bs + bs := by ring
  omega

theorem batchRanges_sum (rc bs : Nat) (hbs : 0 < bs) :
    ((batchRanges rc bs).map (·.2)).sum = rc := by
  unfold batchRanges
  by_cases hle : rc ≤ bs
  · rw [if_pos hle]
    simp
  · rw [if_neg hle]
    rw [batchLoop_sum rc bs (rc / bs + 1) 0 (batchRanges_fuel_ok rc bs hbs)]
    omega

theorem batchLoop_getElem (rc bs : Nat) :
    ∀ fuel start k (r : Nat × Nat), (batchLoop rc bs fuel start)[k]? = some r →
    r.1 = start + k * bs := by
  intro fuel
  induction fuel with
  | zero =>
    intro start k r h
    simp [batchLoop] at h
  | succ fuel ih =>
    intro start k r h
    rw [batchLoop] at h
    by_cases hlt : start < rc
    · rw [if_pos hlt] at h
      cases k with
      | zero =>
        simp only [List.getElem?_cons_zero, Option.some.injEq] at h
        subst h
        simp
      | succ k =>
        rw [List.getElem?_cons_succ] at h
        rw [ih (start + bs) k r h]
        ring
    · rw [if_neg hlt] at h
      simp at h

theorem batchRanges_getElem (rc bs : Nat) (k : Nat) (r : Nat × Nat)
    (h : (batchRanges rc bs)[k]? = some r) : r.1 = k * bs := by
  unfold batchRanges at h
  by_cases hle : rc ≤ bs
  · rw [if_pos hle] at h
    cases k with
    | zero =>
      simp only [List.getElem?_cons_zero, Option.some.injEq] at h
      subst h
      simp
    | succ k => simp at h
  · rw [if_neg hle] at h
    rw [batchLoop_getElem rc bs (rc / bs + 1) 0 k r h]
    omega

theorem batchLoop_mem (rc bs : Nat) :
    ∀ fuel start r, r ∈ batchLoop rc bs fuel start → r.1 + r.2 ≤ rc := by
  intro fuel
  induction fuel with
  | zero =>
    intro start r hr
    simp [batchLoop] at hr
  | succ fuel ih =>
    intro start r hr
    rw [batchLoop] at hr
    by_cases hlt : start < rc
    · rw [if_pos hlt] at hr
      rcases List.mem_cons.mp hr with h | h
      · subst h
        simp
        omega
      · exact ih (start + bs) r h
    · rw [if_neg hlt] at hr
      simp at hr

theorem batchRanges_mem (rc bs : Nat) : ∀ r ∈ batchRanges rc bs, r.1 + r.2 ≤ rc := by
  intro r hr
  unfold batchRanges at hr
  by_cases hle : rc ≤ bs
  · rw [if_pos hle] at hr
    simp at hr
    subst hr
    simp
  · rw [if_neg hle] at hr
    exact batchLoop_mem rc bs _ 0 r hr

theorem batchLoop_join {α : Type} (l : List α) (bs : Nat) :
    ∀ fuel start, l.length ≤ start + fuel * bs →
    ((batchLoop l.length bs fuel start).map (fun r => (l.drop r.1).take r.2)).flatten =
      l.drop start := by
  intro fuel
  induction fuel with
  | zero =>
    intro start hb
    simp only [batchLoop, List.map_nil, List.flatten_nil]
    rw [List.drop_eq_nil_of_le (by omega)]
  | succ fuel ih =>
    intro start hb
    rw [batchLoop]
    by_cases hlt : start < l.length
    · rw [if_pos hlt]
      simp only [List.map_cons, List.flatten_cons]
      rw [ih (start + bs) (by
        have h1 : (fuel + 1) * bs = fuel * bs + bs := by ring
        omega)]
      have hc : min (start + bs) l.length - start = min bs (l.length - start) := by omega
      by_cases hcase : start + bs ≤ l.length
      · have hc2 : min (start + bs) l.length - start = bs := by omega
        rw [hc2]
        have hdd : l.drop (start + bs) = ((l.drop start).drop bs) :=
          (List.drop_drop bs start l).symm
        rw [hdd, List.take_append_drop]
      · have hc2 : min (start + bs) l.length - start = l.length - start := by omega
        rw [hc2]
        have hlen2 : (l.drop start).length = l.length - start := by simp
        have htk : (l.drop start).take (l.length - start) = l.drop start := by
          rw [← hlen2, List.take_length]
        have hdr : l.drop (start + bs) = [] := List.drop_eq_nil_of_le (by omega)
        rw [htk, hdr, List.append_nil]
    · rw [if_neg hlt]
      simp only [List.map_nil, List.flatten_nil]
      rw [List.drop_eq_nil_of_le (by omega)]

theorem batchRanges_join {α : Type} (l : List α) (bs : Nat) (hbs : 0 < bs) :
    ((batchRanges l.length bs).map (fun r => (l.drop r.1).take r.2)).flatten = l := by
  unfold batchRanges
  by_cases hle : l.length ≤ bs
  · rw [if_pos hle]
    simp
  · rw [if_neg hle]
    rw [batchLoop_join l bs (l.length / bs + 1) 0 (batchRanges_fuel_ok l.length bs hbs)]
    rw [List.drop_zero]

/-! ## Helper lemmas: file round-trip -/

theorem readExact_append (a b : List Nat) : readExact a.length (a ++ b) = some (a, b) := by
  unfold readExact
  rw [if_pos (by simp), List.take_left, List.drop_left]

theorem readBatchesInt_ranges (zenc : List Nat → List Nat)
    (zdec : List Nat → Option (List Nat))
    (hz : ∀ b, zdec (zenc b) = some b) (hne : ∀ b, zenc b ≠ [])
    (l : List Int) (hl : ∀ x ∈ l, isI64 x) :
    ∀ (ranges : List (Nat × Nat)), (∀ r ∈ ranges, r.1 + r.2 ≤ l.length) → ∀ rest,
    readBatchesInt zdec
      (ranges.map fun r => BatchMeta.mk r.1 r.2
        (compress_int64_column zenc ((l.drop r.1).take r.2)).length
        (uncompressedSize (sliceData (.int64 l) r.1 r.2)))
      ((ranges.map fun r => compress_int64_column zenc ((l.drop r.1).take r.2)).flatten ++ rest)
    = some ((ranges.map fun r => (l.drop r.1).take r.2).flatten, rest) := by
  intro ranges
  induction ranges with
  | nil =>
    intro _ rest
    simp [readBatchesInt]
  | cons r rs ih =>
    intro hr rest
    simp only [List.map_cons, List.flatten_cons, List.append_assoc]
    rw [readBatchesInt]
    rw [readExact_append]
    have hsl : ∀ x ∈ (l.drop r.1).take r.2, isI64 x := fun x hx =>
      hl x (List.mem_of_mem_drop (List.mem_of_mem_take hx))
    have hslice : ((l.drop r.1).take r.2).length = r.2 := by
      have h1 := hr r (by simp)
      simp only [List.length_take, List.length_drop]
      omega
    have hd := int64_column_roundtrip zenc zdec hz hne ((l.drop r.1).take r.2) hsl
    rw [hslice] at hd
    dsimp only
    simp only [hd]
    simp only [ih (fun x hx => hr x (by simp [hx])) rest]

theorem readBatchesVar_ranges (lenc : List Nat → List Nat)
    (ldec : List Nat → Option (List Nat))
    (hl : ∀ b, ldec (lenc b) = some b) (hne : ∀ b, lenc b ≠ [])
    (l : List (List Nat)) (hlen : ∀ x ∈ l, x.length < 4294967296) :
    ∀ (ranges : List (Nat × Nat)), (∀ r ∈ ranges, r.1 + r.2 ≤ l.length) → ∀ rest,
    readBatchesVar ldec
      (ranges.map fun r => BatchMeta.mk r.1 r.2
        (compress_varchar_column lenc ((l.drop r.1).take r.2)).length
        (uncompressedSize (sliceData (.varchar l) r.1 r.2)))
      ((ranges.map fun r => compress_varchar_column lenc ((l.drop r.1).take r.2)).flatten ++ rest)
    = some ((ranges.map fun r => (l.drop r.1).take r.2).flatten, rest) := by
  intro ranges
  induction ranges with
  | nil =>
    intro _ rest
    simp [readBatchesVar]
  | cons r rs ih =>
    intro hr rest
    simp only [List.map_cons, List.flatten_cons, List.append_assoc]
    rw [readBatchesVar]
    rw [readExact_append]
    have hsl : ∀ x ∈ (l.drop r.1).take r.2, x.length < 4294967296 := fun x hx =>
      hlen x (List.mem_of_mem_drop (List.mem_of_mem_take hx))
    have hslice : ((l.drop r.1).take r.2).length = r.2 := by
      have h1 := hr r (by simp)
      simp only [List.length_take, List.length_drop]
      omega
    have hd := varchar_column_roundtrip lenc ldec hl hne ((l.drop r.1).take r.2) hsl
    rw [hslice] at hd
    dsimp only
    simp only [hd]
    simp only [ih (fun x hx => hr x (by simp [hx])) rest]

theorem serializeColumn_name (zenc lenc : List Nat → List Nat) (bs : Nat)
    (name : String) (d : ColumnData) :
    (serializeColumn zenc lenc bs name d).1.name = name := rfl

theorem serializeColumn_type (zenc lenc : List Nat → List Nat) (bs : Nat)
    (name : String) (d : ColumnData) :
    (serializeColumn zenc lenc bs name d).1.column_type = d.columnType := rfl

theorem serializeColumn_read_int (zenc lenc : List Nat → List Nat)
    (zdec : List Nat → Option (List Nat))
    (hz : ∀ b, zdec (zenc b) = some b) (hne : ∀ b, zenc b ≠ [])
    (l : List Int) (hl : ∀ x ∈ l, isI64 x) (bs : Nat) (hbs : 0 < bs)
    (name : String) (rest : List Nat) :
    readBatchesInt zdec (serializeColumn zenc lenc bs name (.int64 l)).1.batches
        ((serializeColumn zenc lenc bs name (.int64 l)).2 ++ rest) = some (l, rest) := by
  have hread := readBatchesInt_ranges zenc zdec hz hne l hl
    (batchRanges l.length bs) (batchRanges_mem l.length bs) rest
  have hjoin := batchRanges_join l bs hbs
  simp only [serializeColumn, ColumnData.len, sliceData, compressColumn, List.map_map]
  simp only [sliceData] at hread
  simp only [Function.comp_def]
  rw [hread, hjoin]

theorem serializeColumn_read_var (zenc lenc : List Nat → List Nat)
    (ldec : List Nat → Option (List Nat))
    (hl : ∀ b, ldec (lenc b) = some b) (hne : ∀ b, lenc b ≠ [])
    (l : List (List Nat)) (hlen : ∀ x ∈ l, x.length < 4294967296) (bs : Nat) (hbs : 0 < bs)
    (name : String) (rest : List Nat) :
    readBatchesVar ldec (serializeColumn zenc lenc bs name (.varchar l)).1.batches
        ((serializeColumn zenc lenc bs name (.varchar l)).2 ++ rest) = some (l, rest) := by
  have hread := readBatchesVar_ranges lenc ldec hl hne l hlen
    (batchRanges l.length bs) (batchRanges_mem l.length bs) rest
  have hjoin := batchRanges_join l bs hbs
  simp only [serializeColumn, ColumnData.len, sliceData, compressColumn, List.map_map]
  simp only [sliceData] at hread
  simp only [Function.comp_def]
  rw [hread, hjoin]

theorem mapInsert_fresh (m : List (String × ColumnData)) (k : String) (v : ColumnData)
    (h : m.any (·.1 = k) = false) : mapInsert m k v = m ++ [(k, v)] := by
  unfold mapInsert
  rw [if_neg (by simp [h])]

theorem add_column_append (t : Table) (name : String) (d : ColumnData) (rc : Nat)
    (hrc : t.columns = [] ∨ t.row_count = rc) (hlen : d.len = rc)
    (hfresh : t.columns.any (·.1 = name) = false) :
    t.add_column name d = some ⟨t.columns ++ [(name, d)], rc⟩ := by
  unfold Table.add_column
  rw [if_neg (by
    intro hcon
    exact hcon.2 (by
      rcases hrc with h | h
      · exact absurd (by simp [h] : t.columns.isEmpty = true) (by simpa using hcon.1)
      · rw [hlen, h]))]
  rw [mapInsert_fresh t.columns name d hfresh]
  have hrcv : (if t.columns.isEmpty then d.len else t.row_count) = rc := by
    rcases hrc with h | h
    · rw [if_pos (by simp [h]), hlen]
    · by_cases he : t.columns.isEmpty
      · rw [if_pos he, hlen]
      · rw [if_neg he, h]
  rw [hrcv]

theorem deserializeColumns_serialized (zenc lenc : List Nat → List Nat)
    (zdec ldec : List Nat → Option (List Nat))
    (hz : ∀ b, zdec (zenc b) = some b) (hzne : ∀ b, zenc b ≠ [])
    (hlr : ∀ b, ldec (lenc b) = some b) (hlne : ∀ b, lenc b ≠ [])
    (bs : Nat) (hbs : 0 < bs) (rc : Nat) :
    ∀ (cols : List (String × ColumnData)) (t : Table) (rest : List Nat),
    (t.columns = [] ∨ t.row_count = rc) →
    (∀ p ∈ cols, p.2.len = rc) →
    (∀ p ∈ cols, columnOk p.2) →
    (cols.map (·.1)).Nodup →
    (∀ p ∈ cols, t.columns.any (·.1 = p.1) = false) →
    deserializeColumns zdec ldec
      (cols.map fun p => (serializeColumn zenc lenc bs p.1 p.2).1)
      ((cols.map fun p => (serializeColumn zenc lenc bs p.1 p.2).2).flatten ++ rest) t
    = some ⟨t.columns ++ cols, if cols.isEmpty then t.row_count else rc⟩ := by
  intro cols
  induction cols with
  | nil =>
    intro t rest _ _ _ _ _
    simp [deserializeColumns]
  | cons p ps ih =>
    intro t rest hrow hlen hok hnodup hfresh
    obtain ⟨pname, pdata⟩ := p
    have hplen : pdata.len = rc := hlen (pname, pdata) (by simp)
    have hpok : columnOk pdata := hok (pname, pdata) (by simp)
    have hpfresh : t.columns.any (·.1 = pname) = false := hfresh (pname, pdata) (by simp)
    have hadd : t.add_column pname pdata = some ⟨t.columns ++ [(pname, pdata)], rc⟩ :=
      add_column_append t pname pdata rc hrow hplen hpfresh
    have hnodup' : (ps.map (·.1)).Nodup := by
      simp only [List.map_cons, List.nodup_cons] at hnodup
      exact hnodup.2
    have hnotmem : pname ∉ ps.map (·.1) := by
      simp only [List.map_cons, List.nodup_cons] at hnodup
      exact hnodup.1
    have hfresh' : ∀ q ∈ ps, (⟨t.columns ++ [(pname, pdata)], rc⟩ : Table).columns.any
        (·.1 = q.1) = false := by
      intro q hq
      simp only [List.any_append]
      have h1 : t.columns.any (·.1 = q.1) = false := hfresh q (by simp [hq])
      have h2 : pname ≠ q.1 := by
        intro hcon
        exact hnotmem (by
          rw [hcon]
          exact List.mem_map_of_mem (·.1) hq)
      simp [h1, h2]
    have hrest := ih ⟨t.columns ++ [(pname, pdata)], rc⟩ rest (Or.inr rfl)
      (fun q hq => hlen q (by simp [hq])) (fun q hq => hok q (by simp [hq]))
      hnodup' hfresh'
    simp only [List.map_cons, List.flatten_cons, List.append_assoc]
    cases pdata with
    | int64 l =>
      rw [deserializeColumns]
      have htype : (serializeColumn zenc lenc bs pname (.int64 l)).1.column_type =
          ColumnType.int64 := rfl
      have hrd := serializeColumn_read_int zenc lenc zdec hz hzne l hpok bs hbs pname
        ((ps.map fun p => (serializeColumn zenc lenc bs p.1 p.2).2).flatten ++ rest)
      have hname : (serializeColumn zenc lenc bs pname (.int64 l)).1.name = pname := rfl
      simp only [htype, hrd, hname, hadd, hrest]
      simp
    | varchar s =>
      rw [deserializeColumns]
      have htype : (serializeColumn zenc lenc bs pname (.varchar s)).1.column_type =
          ColumnType.varchar := rfl
      have hrd := serializeColumn_read_var zenc lenc ldec hlr hlne s hpok bs hbs pname
        ((ps.map fun p => (serializeColumn zenc lenc bs p.1 p.2).2).flatten ++ rest)
      have hname : (serializeColumn zenc lenc bs pname (.varchar s)).1.name = pname := rfl
      simp only [htype, hrd, hname, hadd, hrest]
      simp

theorem file_roundtrip (zenc lenc : List Nat → List Nat)
    (zdec ldec : List Nat → Option (List Nat)) (henc : FileHeader → List Nat)
    (hdec : List Nat → Option FileHeader)
    (hz : ∀ b, zdec (zenc b) = some b) (hzne : ∀ b, zenc b ≠ [])
    (hlr : ∀ b, ldec (lenc b) = some b) (hlne : ∀ b, lenc b ≠ [])
    (t : Table) (cfg : BatchConfig)
    (hhdr : hdec (henc (headerOf zenc lenc t cfg)) = some (headerOf zenc lenc t cfg))
    (hhlen : (henc (headerOf zenc lenc t cfg)).length < 4294967296)
    (hlen : ∀ p ∈ t.columns, p.2.len = t.row_count)
    (hempty : t.columns = [] → t.row_count = 0)
    (hnodup : (t.columns.map (·.1)).Nodup)
    (hok : ∀ p ∈ t.columns, columnOk p.2)
    (hbs : 0 < cfg.batch_size) :
    deserialize_with_config zdec ldec hdec (serialize_with_config zenc lenc henc t cfg) =
      some t := by
  unfold serialize_with_config deserialize_with_config
  set hb := henc (headerOf zenc lenc t cfg) with hhb
  set payload := (t.columns.map fun p =>
    (serializeColumn zenc lenc cfg.batch_size p.1 p.2).2).flatten with hpl
  have hassoc : MAGIC_BYTES ++ u32le hb.length ++ hb ++ payload =
      MAGIC_BYTES ++ (u32le hb.length ++ (hb ++ payload)) := by
    simp [List.append_assoc]
  rw [hassoc]
  have h8 : (8 : Nat) = MAGIC_BYTES.length := rfl
  rw [h8]
  simp only [readExact_append]
  rw [if_neg (by simp)]
  unfold deserialize_format
  have h4 : (4 : Nat) = (u32le hb.length).length := rfl
  rw [h4]
  simp only [readExact_append]
  rw [u32le_decode, Nat.mod_eq_of_lt hhlen]
  simp only [readExact_append, hhdr]
  have hver : (headerOf zenc lenc t cfg).version = VERSION := rfl
  rw [if_neg (by simp [hver])]
  have hcols : (headerOf zenc lenc t cfg).columns =
      t.columns.map fun p => (serializeColumn zenc lenc cfg.batch_size p.1 p.2).1 := rfl
  rw [hcols]
  have hpay : payload = payload ++ [] := (List.append_nil payload).symm
  rw [hpay, hpl]
  have hres := deserializeColumns_serialized zenc lenc zdec ldec hz hzne hlr hlne
    cfg.batch_size hbs t.row_count t.columns Table.new [] (Or.inl rfl)
    hlen hok hnodup (fun p _ => by simp [Table.new])
  rw [hres]
  by_cases hc : t.columns = []
  · have hrc := hempty hc
    obtain ⟨tc, trc⟩ := t
    simp only at hc hrc
    subst hc
    subst hrc
    rfl
  · obtain ⟨tc, trc⟩ := t
    simp only at hc ⊢
    rw [if_neg (by simpa using hc)]
    simp [Table.new]

/-! ## Helper lemmas: decompression length bound -/

theorem reconstructGo_length (prev : Int) (ds : List Int) :
    (reconstructGo prev ds).length = ds.length := by
  induction ds generalizing prev with
  | nil => rfl
  | cons d more ih => simp [reconstructGo, ih]

theorem reconstruct_length (ds : List Int) : (reconstruct ds).length = ds.length := by
  cases ds with
  | nil => rfl
  | cons d more => simp [reconstruct, reconstructGo_length]

theorem readDeltasLoop_length_le :
    ∀ (r : Nat) (bytes : List Nat) (ds : List Int),
    readDeltasLoop bytes r = some ds → ds.length ≤ r := by
  intro r
  induction r with
  | zero =>
    intro bytes ds h
    rw [readDeltasLoop_zero] at h
    cases h
    simp
  | succ r ih =>
    intro bytes ds h
    cases bytes with
    | nil =>
      cases h
      simp
    | cons b bs =>
      rw [readDeltasLoop] at h
      cases hdv : decode_vle (b :: bs) with
      | none => rw [hdv] at h; cases h
      | some p =>
        obtain ⟨d, n⟩ := p
        rw [hdv] at h
        dsimp only at h
        cases hrec : readDeltasLoop ((b :: bs).drop n) r with
        | none => rw [hrec] at h; cases h
        | some more =>
          rw [hrec] at h
          cases h
          have hle := ih _ more hrec
          simp
          omega

theorem decompress_length_le (zdec : List Nat → Option (List Nat))
    (compressed : List Nat) (rc : Nat) (xs : List Int)
    (h : decompress_int64_column zdec compressed rc = some xs) : xs.length ≤ rc := by
  unfold decompress_int64_column at h
  by_cases hc : compressed = []
  · rw [if_pos hc] at h
    cases h
    simp
  · rw [if_neg hc] at h
    cases hz : zdec compressed with
    | none => rw [hz] at h; cases h
    | some dec =>
      rw [hz] at h
      dsimp only at h
      cases hrd : readDeltasLoop dec rc with
      | none => rw [hrd] at h; cases h
      | some ds =>
        rw [hrd] at h
        cases h
        rw [reconstruct_length]
        exact readDeltasLoop_length_le rc dec ds hrd

theorem decompress_tolerates_junk (zdec : List Nat → Option (List Nat))
    (compressed : List Nat) (xs : List Int) (junk : List Nat)
    (hc : compressed ≠ [])
    (hdec : zdec compressed = some ((deltas xs).flatMap encode_vle ++ junk))
    (hxs : ∀ x ∈ xs, isI64 x) :
    decompress_int64_column zdec compressed xs.length = some xs := by
  unfold decompress_int64_column
  rw [if_neg hc]
  simp only [hdec]
  rw [← deltas_length]
  simp only [readDeltasLoop_encode (deltas xs) (deltas_isI64 xs hxs) junk]
  rw [reconstruct_deltas xs hxs]

/-! ## Helper lemmas: association lists and the metastore state -/

theorem lookupStr_none_keys {α : Type} (l : List (String × α)) (k : String)
    (h : lookupStr l k = none) : ∀ p ∈ l, ¬ p.1 = k := by
  intro p hp
  unfold lookupStr at h
  rw [Option.map_eq_none'] at h
  have := List.find?_eq_none.mp h p hp
  simpa using this

theorem lookupStr_filter_ne {α : Type} (l : List (String × α)) (k : String) :
    lookupStr (l.filter fun p => ¬ p.1 = k) k = none := by
  unfold lookupStr
  rw [Option.map_eq_none', List.find?_eq_none]
  intro p hp
  have := (List.mem_filter.mp hp).2
  simpa using this

theorem lookupStr_append_right {α : Type} (a b : List (String × α)) (k : String)
    (h : lookupStr a k = none) : lookupStr (a ++ b) k = lookupStr b k := by
  unfold lookupStr at h ⊢
  rw [Option.map_eq_none'] at h
  rw [List.find?_append, h]
  simp

theorem any_key_eq_false {α : Type} (l : List (String × α)) (k : String)
    (h : lookupStr l k = none) : l.any (·.1 = k) = false := by
  rw [List.any_eq_false]
  intro p hp
  have := lookupStr_none_keys l k h p hp
  simpa using this

/-! ## Helper lemmas: add_column characterization -/

theorem add_column_none_iff (t : Table) (name : String) (d : ColumnData) :
    t.add_column name d = none ↔ (¬ t.columns.isEmpty ∧ d.len ≠ t.row_count) := by
  unfold Table.add_column
  constructor
  · intro h
    by_contra hcon
    rw [if_neg hcon] at h
    cases h
  · intro h
    rw [if_pos h]

theorem mapInsert_lookup (m : List (String × ColumnData)) (k : String) (v : ColumnData) :
    lookupStr (mapInsert m k v) k = some v := by
  unfold mapInsert
  by_cases h : m.any (·.1 = k) = true
  · rw [if_pos h]
    induction m with
    | nil => simp at h
    | cons p ps ih =>
      by_cases hk : p.1 = k
      · simp only [List.map_cons, if_pos hk]
        unfold lookupStr
        simp
      · simp only [List.map_cons, if_neg hk]
        have hps : ps.any (·.1 = k) = true := by
          simp only [List.any_cons] at h
          rcases Bool.or_eq_true_iff.mp h with h1 | h1
          · exact absurd (by simpa using h1) hk
          · exact h1
        have := ih hps
        unfold lookupStr at this ⊢
        rw [List.find?_cons_of_neg _ (by simpa using hk)]
        exact this
  · rw [if_neg h]
    have hnone : lookupStr m k = none := by
      have hall : ∀ p ∈ m, ¬ (p.1 = k) := by
        intro p hp hk
        exact h (List.any_eq_true.mpr ⟨p, hp, by simpa using hk⟩)
      unfold lookupStr
      rw [Option.map_eq_none', List.find?_eq_none]
      intro p hp
      simpa using hall p hp
    rw [lookupStr_append_right m [(k, v)] k hnone]
    unfold lookupStr
    simp

/-! ## C1: int64 codec round-trip -/

/-- C1: for every finite sequence `xs` of i64 values (empty, singleton,
extreme and all-equal sequences included), decompressing the output of the
int64 column compressor with `row_count = |xs|` yields exactly `xs`. The
external Zstd level-3 codec is abstracted as an encoder/decoder pair subject
to its library contract: decoding inverts encoding, and an encoded frame is
never empty. -/
theorem c1_int64_codec_roundtrip (zenc : List Nat → List Nat)
    (zdec : List Nat → Option (List Nat))
    (hz : ∀ b, zdec (zenc b) = some b) (hne : ∀ b, zenc b ≠ [])
    (xs : List Int) (hxs : ∀ x ∈ xs, isI64 x) :
    decompress_int64_column zdec (compress_int64_column zenc xs) xs.length = some xs :=
  int64_column_roundtrip zenc zdec hz hne xs hxs

/-- Witness for C1 at a concrete sequence containing `i64::MIN`, `i64::MAX`,
repeated values and a concrete code pair. -/
theorem c1_witness :
    decompress_int64_column (fun c => match c with | _ :: t => some t | [] => none)
      (compress_int64_column (fun b => 0 :: b)
        [100, 102, -5, -9223372036854775808, 9223372036854775807, 0, 7, 7, 7]) 9 =
      some [100, 102, -5, -9223372036854775808, 9223372036854775807, 0, 7, 7, 7] :=
  c1_int64_codec_roundtrip (fun b => 0 :: b)
    (fun c => match c with | _ :: t => some t | [] => none)
    (fun _ => rfl) (fun _ h => List.noConfusion h)
    [100, 102, -5, -9223372036854775808, 9223372036854775807, 0, 7, 7, 7] (by decide)

/-! ## C6: decompression row-count handling -/

/-- C6 counterexample: the claim asserts that when the decompressed buffer
holds fewer than `row_count` varints, `decompress_int64_column` fails with a
`Corrupt` error. It does not: for a Zstd frame whose payload is the single
varint byte `0x02` (decoding to the value 1) and `row_count = 3`, the
function returns `Ok([1])` — a shorter result, not an error. The concrete
`zdec` records the action of `zstd::decode_all` on that one frame (here
named `[2]`). -/
theorem c6_counterexample :
    decompress_int64_column (fun c => if c = [2] then some [2] else none) [2] 3 = some [1] ∧
    ([1] : List Int).length ≠ 3 := by
  constructor
  · decide
  · decide

/-- C6 as amended: decompression reads at most `row_count` varints — extra
trailing bytes after `row_count` varints are tolerated and produce no extra
values (first conjunct), and the result is never longer than `row_count`
(second conjunct) — but when the buffer holds fewer varints the shorter
result is returned with no `Corrupt` error (see the counterexample). -/
theorem c6_decompress_row_count :
    (∀ (zdec : List Nat → Option (List Nat)) (compressed : List Nat) (xs : List Int)
       (junk : List Nat), compressed ≠ [] →
       zdec compressed = some ((deltas xs).flatMap encode_vle ++ junk) →
       (∀ x ∈ xs, isI64 x) →
       decompress_int64_column zdec compressed xs.length = some xs) ∧
    (∀ (zdec : List Nat → Option (List Nat)) (compressed : List Nat) (rc : Nat)
       (xs : List Int), decompress_int64_column zdec compressed rc = some xs →
       xs.length ≤ rc) :=
  ⟨decompress_tolerates_junk, decompress_length_le⟩

/-- Witness for C6: the amended theorem applied at concrete inputs — a frame
holding one varint plus two junk bytes decodes to exactly one value, and a
shorter-than-requested decode is bounded by `row_count`. -/
theorem c6_witness :
    decompress_int64_column (fun c => if c = [9] then some [2, 7, 7] else none) [9] 1 =
      some [1] ∧
    ([1] : List Int).length ≤ 3 := by
  constructor
  · have hz : zigzagEnc 1 = 2 := by decide
    have he : encode_vle 1 = [2] := by
      rw [encode_vle, hz, encodeVleU]
      simp
    have hd : (deltas [1]).flatMap encode_vle = [2] := by
      simp [deltas, deltasGo, he]
    exact c6_decompress_row_count.1 (fun c => if c = [9] then some [2, 7, 7] else none)
      [9] [1] [7, 7] (by decide) (by rw [hd]; decide) (by decide)
  · exact c6_decompress_row_count.2 (fun c => if c = [2] then some [2] else none)
      [2] 3 [1] (by decide)

/-! ## C7: add_column checks -/

/-- C7 counterexample: the claim asserts `add_column` fails when a column
with the same name is already present. It does not: on a table with column
"a" of two rows, adding a fresh two-row column also named "a" succeeds and
silently replaces the old column (`HashMap::insert`). -/
theorem c7_counterexample :
    (Table.mk [("a", ColumnData.int64 [1, 2])] 2).add_column "a" (ColumnData.int64 [3, 4]) =
      some (Table.mk [("a", ColumnData.int64 [3, 4])] 2) := by decide

/-- C7 as amended: `add_column(name, data)` fails iff the table already has
at least one column and `data.len()` differs from `row_count` (first
conjunct; failure leaves the table unchanged since the bail precedes every
mutation); a duplicate name is NOT rejected — after any successful insert
the name maps to the new data (second conjunct); the first added column
fixes `row_count` to `data.len()` and later successful inserts leave
`row_count` unchanged (third conjunct). -/
theorem c7_add_column_checks :
    (∀ (t : Table) (name : String) (d : ColumnData),
       t.add_column name d = none ↔ (¬ t.columns.isEmpty ∧ d.len ≠ t.row_count)) ∧
    (∀ (t t' : Table) (name : String) (d : ColumnData),
       t.add_column name d = some t' → t'.get_column name = some d) ∧
    (∀ (t t' : Table) (name : String) (d : ColumnData),
       t.add_column name d = some t' →
       t'.row_count = if t.columns.isEmpty then d.len else t.row_count) := by
  refine ⟨add_column_none_iff, ?_, ?_⟩
  · intro t t' name d h
    unfold Table.add_column at h
    by_cases hcon : ¬ t.columns.isEmpty ∧ d.len ≠ t.row_count
    · rw [if_pos hcon] at h
      cases h
    · rw [if_neg hcon] at h
      cases h
      unfold Table.get_column
      exact mapInsert_lookup t.columns name d
  · intro t t' name d h
    unfold Table.add_column at h
    by_cases hcon : ¬ t.columns.isEmpty ∧ d.len ≠ t.row_count
    · rw [if_pos hcon] at h
      cases h
    · rw [if_neg hcon] at h
      cases h
      rfl

/-- Witness for C7: the amended theorem applied at concrete tables — a
length-mismatched add fails, and a successful add is looked up and fixes the
row count. -/
theorem c7_witness :
    ((Table.mk [("a", ColumnData.int64 [1, 2])] 2).add_column "b" (ColumnData.int64 [3]) =
      none) ∧
    (Table.mk [("b", ColumnData.int64 [5, 6])] 2).get_column "b" =
      some (ColumnData.int64 [5, 6]) ∧
    (Table.mk [("b", ColumnData.int64 [5, 6])] 2).row_count = 2 := by
  refine ⟨?_, ?_, ?_⟩
  · exact (c7_add_column_checks.1 (Table.mk [("a", ColumnData.int64 [1, 2])] 2) "b"
      (ColumnData.int64 [3])).mpr (by decide)
  · exact c7_add_column_checks.2.1 Table.new (Table.mk [("b", ColumnData.int64 [5, 6])] 2)
      "b" (ColumnData.int64 [5, 6]) (by decide)
  · exact (c7_add_column_checks.2.2 Table.new (Table.mk [("b", ColumnData.int64 [5, 6])] 2)
      "b" (ColumnData.int64 [5, 6]) (by decide)).trans (by decide)

/-! ## C8: batching policy -/

/-- C8: the batch size is clamped into `[1000, 1000000]` with default
`100000`; a column of at most `batch_size` rows is written as exactly one
batch `(0, row_count)`; otherwise batch `k` starts at `k * batch_size` and
the batch row counts sum to the column's row count; at 250000 rows with
batch size 30000 the writer emits eight batches of 30000 rows and one of
10000. -/
theorem c8_batching_policy :
    (∀ b, MIN_BATCH_SIZE ≤ (BatchConfig.new b).batch_size ∧
       (BatchConfig.new b).batch_size ≤ MAX_BATCH_SIZE ∧
       (MIN_BATCH_SIZE ≤ b → b ≤ MAX_BATCH_SIZE → (BatchConfig.new b).batch_size = b)) ∧
    BatchConfig.default.batch_size = 100000 ∧
    (∀ rc bs, rc ≤ bs → batchRanges rc bs = [(0, rc)]) ∧
    (∀ rc bs k (r : Nat × Nat), (batchRanges rc bs)[k]? = some r → r.1 = k * bs) ∧
    (∀ rc bs, 0 < bs → ((batchRanges rc bs).map (·.2)).sum = rc) ∧
    (batchRanges 250000 30000).map (·.2) =
      [30000, 30000, 30000, 30000, 30000, 30000, 30000, 30000, 10000] := by
  refine ⟨?_, rfl, ?_, batchRanges_getElem, batchRanges_sum, ?_⟩
  · intro b
    unfold BatchConfig.new MIN_BATCH_SIZE MAX_BATCH_SIZE
    refine ⟨?_, ?_, ?_⟩ <;> simp <;> omega
  · intro rc bs h
    unfold batchRanges
    rw [if_pos h]
  · decide

/-- Witness for C8 at concrete batch sizes and row counts. -/
theorem c8_witness :
    batchRanges 5 100000 = [(0, 5)] ∧
    ((batchRanges 10 3).map (·.2)).sum = 10 ∧
    (BatchConfig.new 50000).batch_size = 50000 := by
  refine ⟨?_, ?_, ?_⟩
  · exact c8_batching_policy.2.2.1 5 100000 (by decide)
  · exact c8_batching_policy.2.2.2.2.1 10 3 (by decide)
  · exact (c8_batching_policy.1 50000).2.2 (by decide) (by decide)

/-! ## C10: negative row limit in get_result -/

/-- C10: calling `get_result` with a negative `row_limit` on a Completed
query whose stored `row_count` exceeds that limit overwrites each item's
`row_count` with the negative limit while every column keeps all of its
stored elements: the `i32` limit is sign-extended by `as usize` to a value
of at least `2^64 - 2^31`, so `take` keeps every element (Rust vectors hold
fewer than `2^63` elements). -/
theorem c10_negative_row_limit (queries : List (String × QueryState)) (qid : String)
    (q : QueryState) (res : QueryResult) (limit : Int)
    (hq : lookupStr queries qid = some q)
    (hst : q.status = QueryStatus.completed)
    (hres : q.result = some res)
    (hneg : limit < 0) (hi32 : -2147483648 ≤ limit)
    (hcnt : ∀ item ∈ res, limit < item.row_count)
    (hlen : ∀ item ∈ res, ∀ col ∈ item.columns, col.len < 9223372036854775808) :
    get_result queries qid (some limit) =
      some (some (res.map fun item =>
        { row_count := limit, columns := item.columns })) := by
  unfold get_result
  rw [hq]
  dsimp only
  rw [if_neg (by simp [hst]), hres]
  dsimp only
  have hn : 9223372036854775808 ≤ i32ToUsize limit := by
    unfold i32ToUsize
    omega
  have hmap : res.map (applyRowLimit limit) = res.map fun item =>
      { row_count := limit, columns := item.columns } := by
    apply List.map_congr_left
    intro item hitem
    unfold applyRowLimit
    rw [if_pos (hcnt item hitem)]
    have hcols : ∀ col ∈ item.columns,
        ResultColumn.takeN col (i32ToUsize limit) = col := by
      intro col hcol
      have hcl := hlen item hitem col hcol
      cases col with
      | int64 v =>
        unfold ResultColumn.takeN
        dsimp only
        rw [List.take_of_length_le (by
          have hv : ResultColumn.len (.int64 v) = v.length := rfl
          omega)]
      | varchar v =>
        unfold ResultColumn.takeN
        dsimp only
        rw [List.take_of_length_le (by
          have hv : ResultColumn.len (.varchar v) = v.length := rfl
          omega)]
    have hid : item.columns.map (ResultColumn.takeN · (i32ToUsize limit)) = item.columns := by
      conv_rhs => rw [← List.map_id item.columns]
      exact List.map_congr_left hcols
    rw [hid]
  rw [hmap]

/-- Witness for C10: a Completed query with two stored rows asked for
`row_limit = -1` reports `row_count = -1` with both rows still present. -/
theorem c10_witness :
    get_result [("q1", QueryState.mk QueryStatus.completed
        (some [QueryResultItem.mk 2 [ResultColumn.int64 [10, 20]]]))] "q1" (some (-1)) =
      some (some [QueryResultItem.mk (-1) [ResultColumn.int64 [10, 20]]]) := by
  have h := c10_negative_row_limit
    [("q1", QueryState.mk QueryStatus.completed
      (some [QueryResultItem.mk 2 [ResultColumn.int64 [10, 20]]]))] "q1"
    (QueryState.mk QueryStatus.completed
      (some [QueryResultItem.mk 2 [ResultColumn.int64 [10, 20]]]))
    [QueryResultItem.mk 2 [ResultColumn.int64 [10, 20]]] (-1)
    (by decide) rfl rfl (by decide) (by decide) (by decide) (by decide)
  exact h.trans (by decide)

/-! ## C4: acquire after delete fails -/

/-- C4: after `delete_table(T)` succeeds, `acquire_table_access(T, Q)` fails
for every query id `Q` (the table id is gone from the `tables` map), and the
access tracker is exactly as it was before the delete — in particular no new
access is recorded. -/
theorem c4_acquire_after_delete (s : MetastoreState) (tid : String)
    (s' : MetastoreState) (meta : TableMetadata) (qid : String)
    (h : delete_table s tid = some (s', meta)) :
    acquire_table_access s' tid qid = none ∧ s'.tracker = s.tracker := by
  unfold delete_table at h
  cases hl : lookupStr s.tables tid with
  | none => rw [hl] at h; cases h
  | some table =>
    rw [hl] at h
    dsimp only at h
    by_cases hact : (s.tracker.hasActiveAccesses tid : Bool) = true
    · rw [if_pos hact] at h
      rw [Option.some.injEq, Prod.mk.injEq] at h
      obtain ⟨hs, _⟩ := h
      subst hs
      constructor
      · unfold acquire_table_access
        rw [if_pos (by rw [lookupStr_filter_ne]; rfl)]
      · rfl
    · rw [if_neg hact] at h
      rw [Option.some.injEq, Prod.mk.injEq] at h
      obtain ⟨hs, _⟩ := h
      subst hs
      constructor
      · unfold acquire_table_access
        rw [if_pos (by rw [lookupStr_filter_ne]; rfl)]
      · rfl

/-- Witness for C4: deleting the only table of a concrete metastore, then
trying to acquire access to it. -/
theorem c4_witness :
    acquire_table_access (MetastoreState.mk [] [] [] (TableAccessTracker.mk [])
        ["root", "tables"] (FileSys.mk [] [])) "t1" "q1" = none ∧
    (MetastoreState.mk [] [] [] (TableAccessTracker.mk [])
        ["root", "tables"] (FileSys.mk [] [])).tracker =
      (MetastoreState.mk [("t1", TableMetadata.mk "t1" "users" [] [])]
        [("users", "t1")] [] (TableAccessTracker.mk [])
        ["root", "tables"] (FileSys.mk [] [])).tracker :=
  c4_acquire_after_delete
    (MetastoreState.mk [("t1", TableMetadata.mk "t1" "users" [] [])]
      [("users", "t1")] [] (TableAccessTracker.mk [])
      ["root", "tables"] (FileSys.mk [] []))
    "t1"
    (MetastoreState.mk [] [] [] (TableAccessTracker.mk [])
      ["root", "tables"] (FileSys.mk [] []))
    (TableMetadata.mk "t1" "users" [] []) "q1" (by decide)

theorem mapIdOfMem {α : Type} (l : List α) (f : α → α) (h : ∀ x ∈ l, f x = x) :
    l.map f = l := by
  conv_rhs => rw [← List.map_id l]
  exact List.map_congr_left h

/-! ## C3: deferred deletion protocol -/

/-- C3: with one active access on table `T` (holding the single data file
`F`), `delete_table(T)` hides the table (`get_table` returns `None`), leaves
`F` on disk and records `T` in `pending_deletions`; when the last holder
then calls `release_table_access(T, Q)`, `F` is unlinked, the table
directory is removed and the pending entry disappears. Hypotheses `h1`-`h5`
describe the initial state: `T` present with data file `F` on disk, no
active access, no pending entry. -/
theorem c3_deferred_deletion
    (s : MetastoreState) (tid qid : String) (meta : TableMetadata) (f : FsPath)
    (s1 s2 : MetastoreState) (meta2 : TableMetadata)
    (h1 : lookupStr s.tables tid = some meta)
    (h2 : meta.data_files = [f])
    (h3 : lookupStr s.tracker.active_accesses tid = none)
    (h4 : ∀ p ∈ s.pending_deletions, ¬ p.table_id = tid)
    (h5 : f ∈ s.fs.files)
    (hacq : acquire_table_access s tid qid = some s1)
    (hdel : delete_table s1 tid = some (s2, meta2)) :
    getTable s2 tid = none ∧
    f ∈ s2.fs.files ∧
    is_pending_deletion s2 tid = true ∧
    f ∉ (release_table_access s2 tid qid).fs.files ∧
    tableDirOf s tid ∉ (release_table_access s2 tid qid).fs.dirs ∧
    is_pending_deletion (release_table_access s2 tid qid) tid = false := by
  have hkeys : ∀ p ∈ s.tracker.active_accesses, ¬ p.1 = tid := lookupStr_none_keys _ _ h3
  have hacqt : s.tracker.acquire tid qid =
      ⟨s.tracker.active_accesses ++ [(tid, [qid])]⟩ := by
    unfold TableAccessTracker.acquire
    rw [if_neg (by rw [any_key_eq_false _ _ h3]; simp)]
  unfold acquire_table_access at hacq
  rw [if_neg (by rw [h1]; simp)] at hacq
  rw [Option.some.injEq] at hacq
  subst hacq
  unfold delete_table at hdel
  dsimp only at hdel
  rw [h1] at hdel
  dsimp only at hdel
  have hhas : (s.tracker.acquire tid qid).hasActiveAccesses tid = true := by
    rw [hacqt]
    unfold TableAccessTracker.hasActiveAccesses
    dsimp only
    rw [lookupStr_append_right _ _ _ h3]
    unfold lookupStr
    simp
  rw [if_pos hhas] at hdel
  rw [Option.some.injEq, Prod.mk.injEq] at hdel
  obtain ⟨hs2, hm2⟩ := hdel
  subst hs2
  have hrelease : (s.tracker.acquire tid qid).release tid qid =
      ⟨s.tracker.active_accesses⟩ := by
    rw [hacqt]
    unfold TableAccessTracker.release
    dsimp only
    rw [List.map_append]
    have hmapacc : (s.tracker.active_accesses.map fun p =>
        if p.1 = tid then (p.1, p.2.filter (· ≠ qid)) else p) =
        s.tracker.active_accesses :=
      mapIdOfMem _ _ (fun p hp => by rw [if_neg (hkeys p hp)])
    rw [hmapacc]
    have hsing : (([((tid : String), [qid])]).map fun p =>
        if p.1 = tid then (p.1, p.2.filter (· ≠ qid)) else p) =
        [(tid, ([] : List String))] := by simp
    rw [hsing, List.filter_append]
    have hfacc : (s.tracker.active_accesses.filter fun p =>
        ¬ (p.1 = tid ∧ p.2 = [])) = s.tracker.active_accesses :=
      List.filter_eq_self.mpr (fun p hp => by simp [hkeys p hp])
    rw [hfacc]
    simp
  have hhas3 : TableAccessTracker.hasActiveAccesses ⟨s.tracker.active_accesses⟩ tid =
      false := by
    unfold TableAccessTracker.hasActiveAccesses
    dsimp only
    rw [h3]
  have hfind : s.pending_deletions.find? (·.table_id = tid) = none :=
    List.find?_eq_none.mpr (fun p hp => by simpa using h4 p hp)
  have hfs1dirs : (FileSys.removeFile s.fs f).dirs = s.fs.dirs := rfl
  have hrel : release_table_access
      { s with
          tables := s.tables.filter fun p => ¬ p.1 = tid
          name_to_id := s.name_to_id.filter fun p => ¬ p.1 = meta.name
          tracker := s.tracker.acquire tid qid
          pending_deletions := s.pending_deletions ++
            [⟨tid, meta.data_files, s.data_directory ++ [tid]⟩] } tid qid =
      { s with
          tables := s.tables.filter fun p => ¬ p.1 = tid
          name_to_id := s.name_to_id.filter fun p => ¬ p.1 = meta.name
          tracker := ⟨s.tracker.active_accesses⟩
          pending_deletions := s.pending_deletions
          fs := if (FileSys.removeFile s.fs f).dirExists (s.data_directory ++ [tid]) then
              (FileSys.removeFile s.fs f).removeDirAll (s.data_directory ++ [tid])
            else FileSys.removeFile s.fs f } := by
    unfold release_table_access
    dsimp only
    rw [hrelease, hhas3]
    rw [if_neg (by simp)]
    unfold try_cleanup_table
    dsimp only
    rw [List.find?_append, hfind, Option.none_or]
    rw [List.find?_cons_of_pos _ (by simp)]
    rw [List.eraseP_append_right _ (fun p hp => by simpa using h4 p hp)]
    rw [List.eraseP_cons_of_pos (by simp)]
    dsimp only
    rw [h2]
    dsimp only [List.foldl]
    simp
  refine ⟨?_, ?_, ?_, ?_, ?_, ?_⟩
  · unfold getTable
    dsimp only
    exact lookupStr_filter_ne _ _
  · exact h5
  · unfold is_pending_deletion
    dsimp only
    rw [List.any_append]
    simp
  · rw [show tableDirOf { s with tracker := s.tracker.acquire tid qid } tid =
        s.data_directory ++ [tid] from rfl]
    rw [hrel]
    dsimp only
    split
    · intro hmem
      unfold FileSys.removeDirAll at hmem
      dsimp only at hmem
      have hmem2 := List.mem_of_mem_filter hmem
      unfold FileSys.removeFile at hmem2
      dsimp only at hmem2
      have hne := (List.mem_filter.mp hmem2).2
      simp at hne
    · intro hmem
      unfold FileSys.removeFile at hmem
      dsimp only at hmem
      have hne := (List.mem_filter.mp hmem).2
      simp at hne
  · rw [show tableDirOf { s with tracker := s.tracker.acquire tid qid } tid =
        s.data_directory ++ [tid] from rfl]
    rw [hrel]
    dsimp only
    unfold tableDirOf
    split
    · intro hmem
      unfold FileSys.removeDirAll at hmem
      dsimp only at hmem
      have hne := (List.mem_filter.mp hmem).2
      have hud : underDir (s.data_directory ++ [tid]) (s.data_directory ++ [tid]) = true := by
        unfold underDir
        rw [List.take_of_length_le (Nat.le_refl _)]
        simp
      simp [hud] at hne
    · intro hmem
      rename_i hdir
      unfold FileSys.dirExists at hdir
      rw [hfs1dirs] at hdir
      have hmem2 : (s.data_directory ++ [tid]) ∈ s.fs.dirs := hmem
      exact hdir (by simpa using hmem2)
  · rw [show tableDirOf { s with tracker := s.tracker.acquire tid qid } tid =
        s.data_directory ++ [tid] from rfl]
    rw [hrel]
    unfold is_pending_deletion
    dsimp only
    rw [List.any_eq_false]
    intro p hp
    simpa using h4 p hp

/-- Witness for C3: a concrete metastore with one table `t1` holding one
data file, one querier `q1`; delete then release. -/
theorem c3_witness :
    getTable (MetastoreState.mk [] []
        [PendingDeletion.mk "t1" [["root", "tables", "t1", "d.mimdb"]]
          ["root", "tables", "t1"]]
        (TableAccessTracker.mk [("t1", ["q1"])]) ["root", "tables"]
        (FileSys.mk [["root", "tables", "t1", "d.mimdb"]] [["root", "tables", "t1"]]))
      "t1" = none ∧
    ["root", "tables", "t1", "d.mimdb"] ∈ (MetastoreState.mk [] []
        [PendingDeletion.mk "t1" [["root", "tables", "t1", "d.mimdb"]]
          ["root", "tables", "t1"]]
        (TableAccessTracker.mk [("t1", ["q1"])]) ["root", "tables"]
        (FileSys.mk [["root", "tables", "t1", "d.mimdb"]]
          [["root", "tables", "t1"]])).fs.files ∧
    is_pending_deletion (MetastoreState.mk [] []
        [PendingDeletion.mk "t1" [["root", "tables", "t1", "d.mimdb"]]
          ["root", "tables", "t1"]]
        (TableAccessTracker.mk [("t1", ["q1"])]) ["root", "tables"]
        (FileSys.mk [["root", "tables", "t1", "d.mimdb"]] [["root", "tables", "t1"]]))
      "t1" = true ∧
    ["root", "tables", "t1", "d.mimdb"] ∉ (release_table_access (MetastoreState.mk [] []
        [PendingDeletion.mk "t1" [["root", "tables", "t1", "d.mimdb"]]
          ["root", "tables", "t1"]]
        (TableAccessTracker.mk [("t1", ["q1"])]) ["root", "tables"]
        (FileSys.mk [["root", "tables", "t1", "d.mimdb"]] [["root", "tables", "t1"]]))
      "t1" "q1").fs.files ∧
    ["root", "tables", "t1"] ∉ (release_table_access (MetastoreState.mk [] []
        [PendingDeletion.mk "t1" [["root", "tables", "t1", "d.mimdb"]]
          ["root", "tables", "t1"]]
        (TableAccessTracker.mk [("t1", ["q1"])]) ["root", "tables"]
        (FileSys.mk [["root", "tables", "t1", "d.mimdb"]] [["root", "tables", "t1"]]))
      "t1" "q1").fs.dirs ∧
    is_pending_deletion (release_table_access (MetastoreState.mk [] []
        [PendingDeletion.mk "t1" [["root", "tables", "t1", "d.mimdb"]]
          ["root", "tables", "t1"]]
        (TableAccessTracker.mk [("t1", ["q1"])]) ["root", "tables"]
        (FileSys.mk [["root", "tables", "t1", "d.mimdb"]] [["root", "tables", "t1"]]))
      "t1" "q1") "t1" = false :=
  c3_deferred_deletion
    (MetastoreState.mk
      [("t1", TableMetadata.mk "t1" "users" [] [["root", "tables", "t1", "d.mimdb"]])]
      [("users", "t1")] [] (TableAccessTracker.mk []) ["root", "tables"]
      (FileSys.mk [["root", "tables", "t1", "d.mimdb"]] [["root", "tables", "t1"]]))
    "t1" "q1"
    (TableMetadata.mk "t1" "users" [] [["root", "tables", "t1", "d.mimdb"]])
    ["root", "tables", "t1", "d.mimdb"]
    (MetastoreState.mk
      [("t1", TableMetadata.mk "t1" "users" [] [["root", "tables", "t1", "d.mimdb"]])]
      [("users", "t1")] [] (TableAccessTracker.mk [("t1", ["q1"])]) ["root", "tables"]
      (FileSys.mk [["root", "tables", "t1", "d.mimdb"]] [["root", "tables", "t1"]]))
    (MetastoreState.mk [] []
      [PendingDeletion.mk "t1" [["root", "tables", "t1", "d.mimdb"]]
        ["root", "tables", "t1"]]
      (TableAccessTracker.mk [("t1", ["q1"])]) ["root", "tables"]
      (FileSys.mk [["root", "tables", "t1", "d.mimdb"]] [["root", "tables", "t1"]]))
    (TableMetadata.mk "t1" "users" [] [["root", "tables", "t1", "d.mimdb"]])
    (by decide) (by decide) (by decide) (by decide) (by decide) (by decide) (by decide)

/-! ## C2: file round-trip -/

/-- C2: for every in-memory `Table` (any mix of INT64 and VARCHAR columns of
equal length — the `Table` invariant `hlen`/`hempty` — with unique names,
zero rows allowed), deserializing the serialized byte stream yields the very
same table: same columns with the same values in the same order, and the
same `row_count`. The external Zstd, LZ4 and bincode codecs are abstracted
as parameters subject to their library round-trip contracts (`hz`, `hlr`,
`hhdr`), frames are nonempty (`hzne`, `hlne`), the encoded header fits a
`u32` length (`hhlen`), varchar byte lengths fit a `u32` (`hok`), and the
batch size is positive (guaranteed by the clamp in `BatchConfig`). -/
theorem c2_file_roundtrip (zenc lenc : List Nat → List Nat)
    (zdec ldec : List Nat → Option (List Nat)) (henc : FileHeader → List Nat)
    (hdec : List Nat → Option FileHeader)
    (hz : ∀ b, zdec (zenc b) = some b) (hzne : ∀ b, zenc b ≠ [])
    (hlr : ∀ b, ldec (lenc b) = some b) (hlne : ∀ b, lenc b ≠ [])
    (t : Table) (cfg : BatchConfig)
    (hhdr : hdec (henc (headerOf zenc lenc t cfg)) = some (headerOf zenc lenc t cfg))
    (hhlen : (henc (headerOf zenc lenc t cfg)).length < 4294967296)
    (hlen : ∀ p ∈ t.columns, p.2.len = t.row_count)
    (hempty : t.columns = [] → t.row_count = 0)
    (hnodup : (t.columns.map (·.1)).Nodup)
    (hok : ∀ p ∈ t.columns, columnOk p.2)
    (hbs : 0 < cfg.batch_size) :
    deserialize_with_config zdec ldec hdec (serialize_with_config zenc lenc henc t cfg) =
      some t :=
  file_roundtrip zenc lenc zdec ldec henc hdec hz hzne hlr hlne t cfg hhdr hhlen
    hlen hempty hnodup hok hbs

/-- Witness for C2: a concrete two-column table (one INT64, one VARCHAR)
round-tripped through concrete codec instances. -/
theorem c2_witness :
    deserialize_with_config
      (fun c => match c with | _ :: rest => some rest | [] => none)
      (fun c => match c with | _ :: rest => some rest | [] => none)
      (fun _ => some (headerOf (fun b => 0 :: b) (fun b => 0 :: b)
        (Table.mk [("id", ColumnData.int64 [1, -2]),
                   ("name", ColumnData.varchar [[104, 105], []])] 2)
        BatchConfig.default))
      (serialize_with_config (fun b => 0 :: b) (fun b => 0 :: b) (fun _ => [])
        (Table.mk [("id", ColumnData.int64 [1, -2]),
                   ("name", ColumnData.varchar [[104, 105], []])] 2)
        BatchConfig.default) =
      some (Table.mk [("id", ColumnData.int64 [1, -2]),
                      ("name", ColumnData.varchar [[104, 105], []])] 2) :=
  c2_file_roundtrip (fun b => 0 :: b) (fun b => 0 :: b)
    (fun c => match c with | _ :: rest => some rest | [] => none)
    (fun c => match c with | _ :: rest => some rest | [] => none)
    (fun _ => [])
    (fun _ => some (headerOf (fun b => 0 :: b) (fun b => 0 :: b)
      (Table.mk [("id", ColumnData.int64 [1, -2]),
                 ("name", ColumnData.varchar [[104, 105], []])] 2)
      BatchConfig.default))
    (fun _ => rfl) (fun _ h => List.noConfusion h)
    (fun _ => rfl) (fun _ h => List.noConfusion h)
    (Table.mk [("id", ColumnData.int64 [1, -2]),
               ("name", ColumnData.varchar [[104, 105], []])] 2)
    BatchConfig.default
    rfl (by decide) (by decide) (by decide) (by decide) (by decide) (by decide)

/-! ## C5: reader validations -/

/-- C5 counterexample: the claim asserts the reader validates that each
column's batch sizes sum to `total_compressed_size`, that each column's
`total_row_count` equals the header's `row_count`, and that exactly
`HEADER_LEN + 12 + Σ compressed_size` bytes are consumed at EOF. None of
these checks exist: a file whose header claims `total_compressed_size = 99`
(actual batch sum 0), `total_row_count = 5` against a header `row_count` of
7, with 3 unread trailing bytes (15 bytes present, 12 consumed),
deserializes successfully. The header decoder records `bincode::deserialize`
on this file's (empty) header bytes. -/
theorem c5_counterexample :
    deserialize_with_config (fun _ => none) (fun _ => none)
      (fun _ => some (FileHeader.mk 2 1 7
        [ColumnMeta.mk "c" ColumnType.int64 99 0 5 100000 [BatchMeta.mk 0 3 0 0]]))
      (MAGIC_BYTES ++ [0, 0, 0, 0] ++ [9, 9, 9]) =
      some (Table.mk [("c", ColumnData.int64 [])] 0) ∧
    (([BatchMeta.mk 0 3 0 0].map (·.compressed_size)).sum ≠ 99) ∧
    ((5 : Nat) ≠ 7) ∧
    (MAGIC_BYTES ++ [0, 0, 0, 0] ++ [9, 9, 9]).length ≠
      8 + 4 + 0 + ([BatchMeta.mk 0 3 0 0].map (·.compressed_size)).sum := by
  refine ⟨by decide, by decide, by decide, by decide⟩

/-- C5 as amended: the reader validates only the magic bytes and the format
version — a successful deserialization implies the stream starts with
`MIMDB002` (first conjunct), and a header whose version differs from
`VERSION` is rejected (second conjunct). The batch-size sums, the per-column
`total_row_count` against the header's `row_count`, and the
bytes-consumed-at-EOF condition are NOT checked (see the counterexample). -/
theorem c5_reader_validations :
    (∀ (zdec ldec : List Nat → Option (List Nat)) (hdec : List Nat → Option FileHeader)
       (bytes : List Nat) (t : Table),
       deserialize_with_config zdec ldec hdec bytes = some t →
       bytes.take 8 = MAGIC_BYTES) ∧
    (∀ (zdec ldec : List Nat → Option (List Nat)) (hdec : List Nat → Option FileHeader)
       (bytes hsb rest1 hb rest2 : List Nat) (header : FileHeader),
       readExact 4 bytes = some (hsb, rest1) →
       readExact (u32leDecode hsb) rest1 = some (hb, rest2) →
       hdec hb = some header → header.version ≠ VERSION →
       deserialize_format zdec ldec hdec bytes = none) := by
  constructor
  · intro zdec ldec hdec bytes t h
    unfold deserialize_with_config at h
    cases hre : readExact 8 bytes with
    | none => rw [hre] at h; cases h
    | some p =>
      obtain ⟨magic, rest⟩ := p
      rw [hre] at h
      dsimp only at h
      by_cases hm : magic ≠ MAGIC_BYTES
      · rw [if_pos hm] at h
        cases h
      · unfold readExact at hre
        by_cases hle : 8 ≤ bytes.length
        · rw [if_pos hle] at hre
          rw [Option.some.injEq, Prod.mk.injEq] at hre
          obtain ⟨h1, _⟩ := hre
          rw [h1]
          exact not_not.mp hm
        · rw [if_neg hle] at hre
          cases hre
  · intro zdec ldec hdec bytes hsb rest1 hb rest2 header hr1 hr2 hh hv
    unfold deserialize_format
    rw [hr1]
    dsimp only
    rw [hr2]
    dsimp only
    rw [hh]
    dsimp only
    rw [if_pos hv]

/-- Witness for C5: the amended theorem applied at concrete inputs — the
magic prefix of a successfully parsed stream, and rejection of a version-3
header. -/
theorem c5_witness :
    (MAGIC_BYTES ++ [0, 0, 0, 0]).take 8 = MAGIC_BYTES ∧
    deserialize_format (fun _ => none) (fun _ => none)
      (fun _ => some (FileHeader.mk 3 0 0 [])) [0, 0, 0, 0] = none := by
  constructor
  · exact c5_reader_validations.1 (fun _ => none) (fun _ => none)
      (fun _ => some (FileHeader.mk 2 0 0 [])) (MAGIC_BYTES ++ [0, 0, 0, 0])
      (Table.mk [] 0) (by decide)
  · exact c5_reader_validations.2 (fun _ => none) (fun _ => none)
      (fun _ => some (FileHeader.mk 3 0 0 [])) [0, 0, 0, 0] [0, 0, 0, 0] [] [] []
      (FileHeader.mk 3 0 0 []) (by decide) (by decide) (by decide) (by decide)

/-! ## C9: column order of serialization -/

/-- C9 counterexample: the claim asserts serialization iterates columns in
the metastore-schema insertion order so that equal logical tables always
produce identical bytes. It does not: `serialize_with_config` iterates the
`HashMap` `Table.columns` in whatever enumeration order the map happens to
have. Two tables equal as maps (their column lists are permutations of one
another) with the same `row_count` serialize to different byte streams. -/
theorem c9_counterexample :
    List.Perm
      (Table.mk [("a", ColumnData.varchar [[65]]), ("b", ColumnData.varchar [[66]])]
        1).columns
      (Table.mk [("b", ColumnData.varchar [[66]]), ("a", ColumnData.varchar [[65]])]
        1).columns ∧
    (Table.mk [("a", ColumnData.varchar [[65]]), ("b", ColumnData.varchar [[66]])]
        1).row_count =
      (Table.mk [("b", ColumnData.varchar [[66]]), ("a", ColumnData.varchar [[65]])]
        1).row_count ∧
    serialize_with_config (fun b => b) (fun b => b) (fun _ => [])
        (Table.mk [("a", ColumnData.varchar [[65]]), ("b", ColumnData.varchar [[66]])] 1)
        BatchConfig.default ≠
      serialize_with_config (fun b => b) (fun b => b) (fun _ => [])
        (Table.mk [("b", ColumnData.varchar [[66]]), ("a", ColumnData.varchar [[65]])] 1)
        BatchConfig.default := by
  refine ⟨by decide, by decide, by decide⟩

/-- C9 as amended: serialization iterates the columns of the in-memory
`Table` in the HashMap's enumeration order — the header's column names are
exactly `Table.columns` in stored order, not the metastore schema order, so
the bytes are deterministic only for a fixed in-memory map enumeration, and
permutation-equal tables may serialize differently (see the
counterexample). -/
theorem c9_serialize_order (zenc lenc : List Nat → List Nat)
    (t : Table) (cfg : BatchConfig) :
    (headerOf zenc lenc t cfg).columns.map (·.name) = t.columns.map (·.1) := by
  unfold headerOf
  dsimp only
  rw [List.map_map]
  rfl

end Mimdb
